import Mathlib

/-!
Verification of the CSV merge analyzer and merge debugger.

This file embeds the core logic of `csv_merge_analyzer.py` and
`merge_debugger.py` as executable Lean definitions, and proves properties
of the embedded code.

Embedding conventions:
* A loaded CSV is a `Dataset`: its name (the file stem), its header (ordered
  column list) and its rows.  A cell is `Option String` (`none` models NaN).
* The analyzer stores `set(df.columns)` per CSV; we model that column set as
  a `Finset String` (`Dataset.colset`).  Edge labels (`shared_columns`) are
  likewise `Finset String`: the Python `list(set & set)` has arbitrary
  (hash-dependent) order, and every consumer of a label is order-insensitive.
* The connectivity graph of networkx is modelled through its observable
  iteration orders (Python 3.7+ insertion-ordered dicts):
  - `pairScanAux` produces the edges in the insertion order of
    `build_connection_graph`'s double loop;
  - `nodeOrder` is the node insertion order (endpoints in edge order, then
    the isolated-node loop);
  - `listGraphEdges` is the `G.edges()` iteration order: primaries in node
    order, each edge reported once at its earlier endpoint, neighbours in
    adjacency insertion order;
  - `krFold` is Kruskal's algorithm as run by `nx.minimum_spanning_tree`:
    the stable sort by (all-equal) weights keeps `G.edges()` order, and an
    edge is accepted iff its endpoints are in distinct components so far;
    the returned tree `T` copies the node order of `G` and inserts the
    accepted edges in acceptance order, so `find_merge_path`'s
    `list(mst.edges(data=True))` is `listGraphEdges` applied again, to the
    accepted edges.
* `pd.merge(..., how='outer')` on key columns `J` is modelled row-level by
  `outerRows`: each left row is combined with every matching right row (or
  NaN-padded if none matches), then the unmatched right rows are appended.
* Python exceptions (`KeyError` for a missing join key) become `Except`.
-/

/-- A cell value; `none` models NaN / a missing value. -/
abbrev Cell := Option String

/-- A row, as an association list from column name to cell. -/
abbrev Row := List (String × Cell)

/-- Reading a cell of a row; absent columns read as NaN. -/
def getCell (r : Row) (c : String) : Cell := (r.lookup c).getD none

/-- A data frame: column order plus rows (the shape `pd.read_csv` yields). -/
structure DF where
  cols : List String
  rows : List Row
deriving Repr, DecidableEq

/-- One loaded CSV: file stem, header (`column_list`) and row data. -/
structure Dataset where
  name : String
  columns : List String
  rows : List Row
deriving Repr, DecidableEq

/-- The analyzer's `'columns': set(df.columns)` for one CSV. -/
def Dataset.colset (d : Dataset) : Finset String := d.columns.toFinset

/-- The full frame `pd.read_csv(path)` of a dataset. -/
def Dataset.df (d : Dataset) : DF := ⟨d.columns, d.rows⟩

/-- What the planner reads from a dataset: its name and its column set. -/
def Dataset.schema (d : Dataset) : String × Finset String := (d.name, d.colset)

/-- A graph edge / merge step: the two CSV names in the orientation networkx
reports them, plus the `shared_columns` label. -/
structure MergeEdge where
  csv1 : String
  csv2 : String
  shared : Finset String
deriving DecidableEq

/-- Edge insertion order of `build_connection_graph`: for each CSV in load
order, pair it with every later CSV; an edge exists iff the column sets
intersect, labelled with the intersection. -/
def pairScanAux : List (String × Finset String) → List MergeEdge
  | [] => []
  | (n, s) :: rest =>
      (rest.filterMap fun p =>
        if s ∩ p.2 ≠ ∅ then some ⟨n, p.1, s ∩ p.2⟩ else none)
      ++ pairScanAux rest

/-- Keep each element's first occurrence, skipping ones seen already
(Python dict insertion). -/
def dedupFirstAux (seen : List String) : List String → List String
  | [] => []
  | a :: l => if a ∈ seen then dedupFirstAux seen l else a :: dedupFirstAux (a :: seen) l

/-- Remove duplicates keeping the first occurrence (Python dict insertion). -/
def dedupFirst (l : List String) : List String := dedupFirstAux [] l

/-- The endpoints of the edges, in edge order. -/
def edgeNodesSeq (E : List MergeEdge) : List String :=
  E.foldr (fun e acc => e.csv1 :: e.csv2 :: acc) []

/-- networkx node insertion order: endpoints as the edges are added, then
the `add_node` loop appends the remaining CSVs in load order. -/
def nodeOrder (names : List String) (E : List MergeEdge) : List String :=
  dedupFirst (edgeNodesSeq E) ++ names.filter (· ∉ dedupFirst (edgeNodesSeq E))

/-- Position of a node in the node order (`List.indexOf`). -/
def idxOf (ns : List String) (x : String) : Nat := ns.indexOf x

/-- The edges incident to `u` whose other endpoint comes later in node
order, oriented with `u` first, in adjacency (= edge) insertion order. -/
def listEdgesAt (ns : List String) (u : String) (E : List MergeEdge) : List MergeEdge :=
  E.filterMap fun e =>
    if e.csv1 = u ∧ idxOf ns u < idxOf ns e.csv2 then some e
    else if e.csv2 = u ∧ idxOf ns u < idxOf ns e.csv1 then some ⟨e.csv2, e.csv1, e.shared⟩
    else none

/-- `G.edges()` iteration order: primaries in node order; each edge is
reported once, at its earlier endpoint. -/
def listGraphEdges (ns : List String) (E : List MergeEdge) : List MergeEdge :=
  ns.foldr (fun u acc => listEdgesAt ns u E ++ acc) []

/-- One union-find step: merge the components of the edge's endpoints; the
Bool reports whether the edge was accepted (endpoints were disconnected). -/
def ufStep (f : String → String) (e : MergeEdge) : (String → String) × Bool :=
  if f e.csv1 = f e.csv2 then (f, false)
  else ((fun x => if f x = f e.csv1 then f e.csv2 else f x), true)

/-- Kruskal's scan: fold the edges in order, returning the final component
representative map together with the accepted edges in acceptance order. -/
def krFold : List MergeEdge → (String → String) → (String → String) × List MergeEdge
  | [], f => (f, [])
  | e :: rest, f =>
      let s := ufStep f e
      let r := krFold rest s.1
      (r.1, if s.2 then e :: r.2 else r.2)

/-- Component representative after merging along all edges (`id` start). -/
def componentRep (E : List MergeEdge) : String → String := (krFold E id).1

/-- `nx.is_connected` (guarded by `len(nodes) > 0` as in `analyze_coverage`):
every node has the same component representative. -/
def connectedB (names : List String) (E : List MergeEdge) : Bool :=
  match names with
  | [] => false
  | h :: _ => names.all fun x => componentRep E x == componentRep E h

/-- `find_merge_path` on the schemas: check connectivity, run Kruskal on the
`G.edges()` listing, and return `list(mst.edges(data=True))` — the accepted
edges re-listed in the tree's own iteration order. -/
def planOfSchemas (schemas : List (String × Finset String)) : Option (List MergeEdge) :=
  let E := pairScanAux schemas
  let names := schemas.map Prod.fst
  if connectedB names E then
    let ns := nodeOrder names E
    some (listGraphEdges ns ((krFold (listGraphEdges ns E) id).2))
  else none

/-- `find_merge_path` of the analyzer. -/
def findMergePath (csvs : List Dataset) : Option (List MergeEdge) :=
  planOfSchemas (csvs.map Dataset.schema)

/-- The connection graph's edges for a dataset collection. -/
def graphEdges (csvs : List Dataset) : List MergeEdge :=
  pairScanAux (csvs.map Dataset.schema)

/-- `analysis['is_mergeable']`. -/
def isMergeable (csvs : List Dataset) : Bool :=
  connectedB (csvs.map Dataset.name) (graphEdges csvs)

/-- `analysis['isolated_csvs']`: the CSVs touched by no edge (degree zero). -/
def isolatedCsvs (csvs : List Dataset) : List String :=
  (csvs.map Dataset.name).filter fun n =>
    (graphEdges csvs).all fun e => ¬ (e.csv1 = n ∨ e.csv2 = n)

/-- Incremental executability of a plan: the first step's datasets are
arbitrary; each later step has exactly one endpoint already introduced (the
other being the step's genuinely new dataset). -/
def planExecAux : List MergeEdge → List String → Bool
  | [], _ => true
  | e :: rest, merged =>
      (decide (e.csv1 ∈ merged) != decide (e.csv2 ∈ merged))
        && planExecAux rest (e.csv1 :: e.csv2 :: merged)

/-- Incremental executability of a whole plan. -/
def planExecB : List MergeEdge → Bool
  | [] => true
  | e :: rest => planExecAux rest [e.csv1, e.csv2]

/-! ## The merge executor (`execute_merge` / `smart_merge`) -/

/-- How `execute_merge` can fail: the two early-return `None` cases, and the
`KeyError` pandas raises when a join column is absent from a frame.  There
is no separate planning-invariant error kind in the source. -/
inductive ExecErr where
  | notConnected
  | noPath
  | keyError (cols : List String)
deriving Repr, DecidableEq

/-- `pd.read_csv(self.csvs[name]['path'])`: load a dataset by name. -/
def lookupDF (csvs : List Dataset) (n : String) : DF :=
  ((csvs.find? fun d => d.name = n).map Dataset.df).getD ⟨[], []⟩

/-- `right_df[sel]`: restrict a row to the given columns, in their order. -/
def restrictRow (sel : List String) (r : Row) : Row :=
  sel.map fun c => (c, getCell r c)

/-- The right-side columns a merge appends: those not used as join keys. -/
def rightExtra (rcols : List String) (onCols : List String) : List String :=
  rcols.filter fun c => c ∉ onCols

/-- Do a left row and a right row agree on all join columns? -/
def matchRowB (onCols : List String) (l r : Row) : Bool :=
  onCols.all fun k => getCell r k == getCell l k

/-- The result row for a matched pair: the left row, extended with the
right row's non-key columns. -/
def joinedRow (extra : List String) (l r : Row) : Row := l ++ restrictRow extra r

/-- The result row for an unmatched left row: NaN on the right columns. -/
def leftOnlyRow (extra : List String) (l : Row) : Row :=
  l ++ extra.map fun c => (c, (none : Cell))

/-- The result row for an unmatched right row: NaN on the left-only
columns, the right row's values on the keys and its own columns. -/
def rightOnlyRow (lcols : List String) (onCols : List String) (extra : List String) (r : Row) : Row :=
  (lcols.map fun c => (c, if c ∈ onCols then getCell r c else none)) ++ restrictRow extra r

/-- The left-hand part of an outer join: each left row combined with every
matching right row, NaN-padded when nothing matches. -/
def leftJoinRows (extra : List String) (onCols : List String) (rrows : List Row) : List Row → List Row
  | [] => []
  | l :: ls =>
      (match rrows.filter (matchRowB onCols l) with
        | [] => [leftOnlyRow extra l]
        | ms => ms.map (joinedRow extra l))
      ++ leftJoinRows extra onCols rrows ls

/-- The rows of `pd.merge(L, R, on=onCols, how='outer')`. -/
def outerRows (L R : DF) (onCols : List String) : List Row :=
  let extra := rightExtra R.cols onCols
  leftJoinRows extra onCols R.rows L.rows
    ++ ((R.rows.filter fun r => L.rows.all fun l => ¬ matchRowB onCols l r).map
        (rightOnlyRow L.cols onCols extra))

/-- `pd.merge(L, R, on=onCols, how='outer')` for frames whose only shared
columns are the keys (which `smart_merge` guarantees, so no suffixing
occurs): key columns stay where the left frame has them, the right frame
contributes its non-key columns.  A key column missing from either frame
raises `KeyError`. -/
def pdMergeOuter (L R : DF) (onCols : List String) : Except ExecErr DF :=
  if (∀ c ∈ onCols, c ∈ L.cols) ∧ (∀ c ∈ onCols, c ∈ R.cols) then
    .ok ⟨L.cols ++ rightExtra R.cols onCols, outerRows L R onCols⟩
  else .error (.keyError onCols)

/-- `smart_merge`: drop the right-side columns that also exist on the left
and are not join keys, then outer-merge on the join keys. -/
def smartMerge (L R : DF) (onCols : List String) : Except ExecErr DF :=
  let rightSel := R.cols.filter fun c => c ∉ L.cols ∨ c ∈ onCols
  pdMergeOuter L ⟨rightSel, R.rows.map (restrictRow rightSel)⟩ onCols

/-- A canonical enumeration of a finite column set: the underlying
multiset, insertion-sorted (well defined since sorting respects
permutation). -/
def sortedList (s : Finset String) : List String :=
  Quot.liftOn s.1 (fun l => List.insertionSort (fun a b => a ≤ b) l)
    (fun l1 l2 hp =>
      List.eq_of_perm_of_sorted
        ((List.perm_insertionSort _ l1).trans
          (hp.trans (List.perm_insertionSort _ l2).symm))
        (List.sorted_insertionSort _ l1) (List.sorted_insertionSort _ l2))

/-- The join-key list handed to `pd.merge`: the label's elements (the
Python `list(set)` order is arbitrary; we take a canonical enumeration —
every consumer is order-insensitive). -/
def onList (e : MergeEdge) : List String := sortedList e.shared

theorem mem_sortedList (s : Finset String) (c : String) :
    c ∈ sortedList s ↔ c ∈ s := by
  show c ∈ sortedList s ↔ c ∈ s.1
  obtain ⟨m, hm⟩ := s
  induction m using Quot.inductionOn with
  | h l =>
      show c ∈ List.insertionSort (fun a b => a ≤ b) l ↔ _
      rw [(List.perm_insertionSort (fun a b => a ≤ b) l).mem_iff]
      exact Iff.rfl

/-- The merge loop of `execute_merge`: for each remaining step, load the
side not merged yet and `smart_merge` it into the accumulated result. -/
def execSteps (csvs : List Dataset) : List MergeEdge → DF → List String → Except ExecErr DF
  | [], acc, _ => .ok acc
  | st :: rest, acc, merged =>
      let next := if st.csv1 ∈ merged then st.csv2 else st.csv1
      match smartMerge acc (lookupDF csvs next) (onList st) with
      | .ok acc' => execSteps csvs rest acc' (next :: merged)
      | .error err => .error err

/-- `execute_merge`: bail out (returning no table) when not mergeable or
when the plan is empty; otherwise seed with the first step's two CSVs and
fold the remaining steps. -/
def executeMerge (csvs : List Dataset) : Except ExecErr DF :=
  if isMergeable csvs then
    match findMergePath csvs with
    | none => .error .noPath
    | some [] => .error .noPath
    | some (st0 :: rest) =>
        match smartMerge (lookupDF csvs st0.csv1) (lookupDF csvs st0.csv2) (onList st0) with
        | .ok r0 => execSteps csvs rest r0 [st0.csv1, st0.csv2]
        | .error err => .error err
  else .error .notConnected

/-! ## The duplicate debugger (`merge_debugger.py`) -/

/-- `df[col].duplicated().sum()`: rows minus distinct values. -/
def dupCount (vals : List Cell) : Nat := vals.length - vals.dedup.length

/-- `astype(str)` of a cell; pandas renders NaN as `"nan"`. -/
def cellStr : Cell → String
  | some s => s
  | none => "nan"

/-- `.astype(str).str.strip().str.lower()` of a cell: whitespace dropped
from both ends of the character sequence, then each character lower-cased. -/
def normCell (v : Cell) : String :=
  ⟨((((cellStr v).data.dropWhile Char.isWhitespace).reverse.dropWhile
      Char.isWhitespace).reverse.map Char.toLower)⟩

/-- The values of one column of a frame. -/
def colValues (df : DF) (c : String) : List Cell :=
  df.rows.map fun r => getCell r c

/-- Duplicate count of a column on raw values. -/
def rawDupCount (df : DF) (c : String) : Nat := dupCount (colValues df c)

/-- Duplicate count on normalized (stringified, trimmed, lower-cased)
values. -/
def normDupCount (df : DF) (c : String) : Nat :=
  ((colValues df c).map normCell).length - ((colValues df c).map normCell).dedup.length

/-- `potential_join_cols`: the column names appearing in more than one
loaded CSV. -/
def potentialJoinCols (csvs : List (String × DF)) : List String :=
  ((csvs.foldr (fun p acc => p.2.cols ++ acc) []).dedup).filter fun c =>
    1 < csvs.countP fun p => decide (c ∈ p.2.cols)

/-- The `(column, csv)` pairs the debugger flags with "Found case/whitespace
differences!": for each potential join column and each CSV containing it,
flag iff the normalized duplicate count strictly exceeds the raw one. -/
def caseWhitespaceFlags (csvs : List (String × DF)) : List (String × String) :=
  (potentialJoinCols csvs).foldr
    (fun col acc =>
      (csvs.filterMap fun p =>
        if col ∈ p.2.cols ∧ rawDupCount p.2 col < normDupCount p.2 col
        then some (col, p.1) else none) ++ acc)
    []

/-- Occurrences of a key value in a frame's key column. -/
def keyCount (df : DF) (k : String) (v : Cell) : Nat := (colValues df k).count v

/-- §4.5's per-value contribution to the simulated merged row count. -/
def contribution (a b : Nat) : Nat := if a = 0 then b else if b = 0 then a else a * b

/-- The spec's simulated total row count of an outer join on key `k`. -/
def simulatedTotal (L R : DF) (k : String) : Nat :=
  (((colValues L k) ++ (colValues R k)).dedup.map fun v =>
    contribution (keyCount L k v) (keyCount R k v)).sum


/-! ## Association-list plumbing -/

theorem lookup_append (l₁ l₂ : Row) (c : String) :
    (l₁ ++ l₂).lookup c = ((l₁.lookup c).or (l₂.lookup c)) := by
  induction l₁ with
  | nil => simp [List.lookup]
  | cons p t ih =>
      obtain ⟨a, b⟩ := p
      by_cases h : c = a
      · simp [List.lookup, h]
      · have hb : (c == a) = false := beq_eq_false_iff_ne.mpr h
        simp [List.lookup, hb, ih]

theorem getCell_append_of_right_none (l₁ l₂ : Row) (c : String)
    (h : l₂.lookup c = none) : getCell (l₁ ++ l₂) c = getCell l₁ c := by
  unfold getCell
  rw [lookup_append, h]
  cases l₁.lookup c <;> rfl

theorem getCell_append_of_left_some (l₁ l₂ : Row) (c : String) (v : Cell)
    (h : l₁.lookup c = some v) : getCell (l₁ ++ l₂) c = v := by
  unfold getCell
  rw [lookup_append, h]
  rfl

theorem lookup_map_keys (cs : List String) (g : String → Cell) (c : String) :
    ((cs.map fun x => (x, g x)).lookup c) = if c ∈ cs then some (g c) else none := by
  induction cs with
  | nil => simp [List.lookup]
  | cons a t ih =>
      by_cases h : c = a
      · simp [List.lookup, h]
      · have hb : (c == a) = false := beq_eq_false_iff_ne.mpr h
        simp [List.lookup, hb, ih, h]

theorem lookup_restrictRow (sel : List String) (r : Row) (c : String) :
    (restrictRow sel r).lookup c = if c ∈ sel then some (getCell r c) else none :=
  lookup_map_keys sel (getCell r) c

theorem getCell_joinedRow (extra : List String) (l r : Row) (c : String)
    (hc : c ∉ extra) : getCell (joinedRow extra l r) c = getCell l c := by
  unfold joinedRow
  exact getCell_append_of_right_none _ _ _ (by rw [lookup_restrictRow]; simp [hc])

theorem getCell_leftOnlyRow (extra : List String) (l : Row) (c : String)
    (hc : c ∉ extra) : getCell (leftOnlyRow extra l) c = getCell l c := by
  unfold leftOnlyRow
  exact getCell_append_of_right_none _ _ _ (by rw [lookup_map_keys]; simp [hc])

theorem getCell_rightOnlyRow (lcols onCols extra : List String) (r : Row) (c : String)
    (hc : c ∈ lcols) :
    getCell (rightOnlyRow lcols onCols extra r) c
      = if c ∈ onCols then getCell r c else none := by
  unfold rightOnlyRow
  exact getCell_append_of_left_some _ _ _ _ (by rw [lookup_map_keys]; simp [hc])

/-- Every row the left part of the outer join produces comes from some left
row, either NaN-padded or combined with a matching right row. -/
theorem mem_leftJoinRows {extra onCols : List String} {rrows : List Row} :
    ∀ {ls : List Row} {row : Row}, row ∈ leftJoinRows extra onCols rrows ls →
      ∃ l ∈ ls, row = leftOnlyRow extra l ∨ ∃ r ∈ rrows, row = joinedRow extra l r := by
  intro ls
  induction ls with
  | nil => intro row h; simp [leftJoinRows] at h
  | cons l ls ih =>
      intro row h
      unfold leftJoinRows at h
      rcases List.mem_append.mp h with h₁ | h₂
      · refine ⟨l, List.mem_cons_self _ _, ?_⟩
        rcases hms : rrows.filter (matchRowB onCols l) with _ | ⟨m, ms⟩
        · rw [hms] at h₁
          simp at h₁
          exact Or.inl h₁
        · rw [hms] at h₁
          rcases List.mem_map.mp h₁ with ⟨r, hr, hrow⟩
          exact Or.inr ⟨r, List.mem_of_mem_filter (hms ▸ hr), hrow.symm⟩
      · rcases ih h₂ with ⟨l', hl', hshape⟩
        exact ⟨l', List.mem_cons_of_mem _ hl', hshape⟩

/-- C2: in a `smart_merge` step joining the accumulated result (left)
with a new dataset (right) on join columns `J` (present on both sides),
every right-side column whose name exists on the left and is not in `J` is
dropped from the right side before joining: the result's header is the left
columns followed by exactly the right columns absent from the left (no
renaming or suffixing); each column of `J` appears, unsuffixed, exactly
once; and on every left-side column the left values win — each result row
either agrees with some left row on all left columns, or (an unmatched
right row) carries NaN on every non-key left column. -/
theorem claim_C2 (L R : DF) (J : List String)
    (hJL : ∀ c ∈ J, c ∈ L.cols) (hJR : ∀ c ∈ J, c ∈ R.cols)
    (hnd : L.cols.Nodup) :
    ∃ df, smartMerge L R J = .ok df ∧
      df.cols = L.cols ++ (R.cols.filter fun c => c ∉ L.cols) ∧
      (∀ c ∈ J, df.cols.count c = 1) ∧
      (∀ row ∈ df.rows,
        (∃ l ∈ L.rows, ∀ c ∈ L.cols, getCell row c = getCell l c) ∨
        (∀ c ∈ L.cols, c ∉ J → getCell row c = none)) := by
  classical
  have hJsel : ∀ c ∈ J, c ∈ R.cols.filter (fun c => c ∉ L.cols ∨ c ∈ J) := by
    intro c hc
    exact List.mem_filter.mpr ⟨hJR c hc, by simp [hc]⟩
  have hok : smartMerge L R J =
      .ok ⟨L.cols ++ rightExtra (R.cols.filter (fun c => c ∉ L.cols ∨ c ∈ J)) J,
           outerRows L ⟨R.cols.filter (fun c => c ∉ L.cols ∨ c ∈ J),
                        R.rows.map (restrictRow (R.cols.filter (fun c => c ∉ L.cols ∨ c ∈ J)))⟩ J⟩ := by
    unfold smartMerge pdMergeOuter
    rw [if_pos ⟨hJL, hJsel⟩]
  refine ⟨_, hok, ?_, ?_, ?_⟩
  · -- the header
    show L.cols ++ rightExtra (R.cols.filter fun c => c ∉ L.cols ∨ c ∈ J) J
        = L.cols ++ (R.cols.filter fun c => c ∉ L.cols)
    unfold rightExtra
    rw [List.filter_filter]
    refine congrArg (L.cols ++ ·) (List.filter_congr ?_)
    intro c hc
    by_cases hcJ : c ∈ J
    · have : c ∈ L.cols := hJL c hcJ
      simp [hcJ, this]
    · simp [hcJ]
  · -- each join column appears exactly once
    intro c hc
    show (L.cols ++ rightExtra (R.cols.filter fun c => c ∉ L.cols ∨ c ∈ J) J).count c = 1
    rw [List.count_append]
    have h1 : L.cols.count c = 1 := List.count_eq_one_of_mem hnd (hJL c hc)
    have h2 : (rightExtra (R.cols.filter fun c => c ∉ L.cols ∨ c ∈ J) J).count c = 0 := by
      refine List.count_eq_zero.mpr ?_
      intro hmem
      have hnotJ : c ∉ J := by simpa using (List.mem_filter.mp hmem).2
      exact hnotJ hc
    omega
  · -- left values win row by row
    intro row hrow
    have hextra : ∀ c ∈ L.cols,
        c ∉ rightExtra (R.cols.filter fun c => c ∉ L.cols ∨ c ∈ J) J := by
      intro c hcL hmem
      have h₁ := List.mem_filter.mp hmem
      have h₂ := List.mem_filter.mp h₁.1
      have h₃ : c ∉ J := by simpa using h₁.2
      have h₄ : c ∉ L.cols ∨ c ∈ J := by simpa using h₂.2
      rcases h₄ with h₄ | h₄
      · exact h₄ hcL
      · exact h₃ h₄
    unfold outerRows at hrow
    rcases List.mem_append.mp hrow with hL | hR
    · rcases mem_leftJoinRows hL with ⟨l, hl, hshape | ⟨r, _, hshape⟩⟩
      · exact Or.inl ⟨l, hl, fun c hc => hshape ▸ getCell_leftOnlyRow _ _ _ (hextra c hc)⟩
      · exact Or.inl ⟨l, hl, fun c hc => hshape ▸ getCell_joinedRow _ _ _ _ (hextra c hc)⟩
    · rcases List.mem_map.mp hR with ⟨r, _, hshape⟩
      refine Or.inr fun c hcL hcJ => ?_
      rw [← hshape, getCell_rightOnlyRow _ _ _ _ _ hcL, if_neg hcJ]

/-- Witness for C2: a concrete merge where the right side's conflicting
column `v` is dropped and the key `id` appears once. -/
theorem claim_C2_witness :
    (∀ c ∈ ["id"], c ∈ (DF.mk ["id", "v"] [[("id", some "1"), ("v", some "l")]]).cols) ∧
    (∀ c ∈ ["id"], c ∈ (DF.mk ["id", "v", "w"]
        [[("id", some "1"), ("v", some "r"), ("w", some "z")]]).cols) ∧
    (DF.mk ["id", "v"] [[("id", some "1"), ("v", some "l")]]).cols.Nodup ∧
    ∃ df, smartMerge (DF.mk ["id", "v"] [[("id", some "1"), ("v", some "l")]])
        (DF.mk ["id", "v", "w"] [[("id", some "1"), ("v", some "r"), ("w", some "z")]])
        ["id"] = .ok df ∧ df.cols = ["id", "v", "w"] := by
  refine ⟨by decide, by decide, by decide, ?_⟩
  obtain ⟨df, hok, hcols, -, -⟩ :=
    claim_C2 (DF.mk ["id", "v"] [[("id", some "1"), ("v", some "l")]])
      (DF.mk ["id", "v", "w"] [[("id", some "1"), ("v", some "r"), ("w", some "z")]])
      ["id"] (by decide) (by decide) (by decide)
  exact ⟨df, hok, hcols.trans (by decide)⟩

/-! ## Outer-join row counting (the debugger's simulation, §4.5) -/

theorem matchRowB_single (k : String) (l r : Row) :
    matchRowB [k] l r = (getCell r k == getCell l k) := by
  simp [matchRowB]

theorem keyCount_eq_countP (df : DF) (k : String) (v : Cell) :
    keyCount df k v = df.rows.countP fun r => getCell r k == v := by
  unfold keyCount colValues
  rw [List.count, List.countP_map]
  rfl

theorem key_not_mem_rightExtra (rcols : List String) (k : String) :
    k ∉ rightExtra rcols [k] := by
  intro h
  have h₂ := (List.mem_filter.mp h).2
  simp at h₂

theorem countP_leftJoinRows_key (rrows : List Row) (k : String) (v : Cell)
    (extra : List String) (hk : k ∉ extra) (ls : List Row) :
    (leftJoinRows extra [k] rrows ls).countP (fun row => getCell row k == v)
      = (ls.countP fun l => getCell l k == v)
          * max 1 (rrows.countP fun r => getCell r k == v) := by
  induction ls with
  | nil => simp [leftJoinRows]
  | cons l ls ih =>
      unfold leftJoinRows
      rw [List.countP_append, ih, List.countP_cons]
      have hmatch : ∀ r, matchRowB [k] l r = (getCell r k == getCell l k) :=
        fun r => matchRowB_single k l r
      by_cases hlv : getCell l k = v
      · -- this left row has the key value `v`
        have hfilt : (rrows.filter (matchRowB [k] l)).length
            = rrows.countP fun r => getCell r k == v := by
          rw [← List.countP_eq_length_filter]
          refine List.countP_congr fun r _ => ?_
          rw [hmatch r, hlv]
        rcases hms : rrows.filter (matchRowB [k] l) with _ | ⟨m, ms⟩
        · have hb : (rrows.countP fun r => getCell r k == v) = 0 := by
            rw [← hfilt, hms]; rfl
          have hone : getCell (leftOnlyRow extra l) k = v := by
            rw [getCell_leftOnlyRow _ _ _ hk, hlv]
          simp [hb, hone, hlv, Nat.add_mul]
          omega
        · have hb : (rrows.countP fun r => getCell r k == v) = (m :: ms).length := by
            rw [← hfilt, hms]
          have hcnt : ((m :: ms).map (joinedRow extra l)).countP
              (fun row => getCell row k == v) = (m :: ms).length := by
            rw [List.countP_map]
            have : ∀ r ∈ m :: ms, ((fun row => getCell row k == v) ∘ joinedRow extra l) r = true := by
              intro r _
              simp only [Function.comp]
              rw [getCell_joinedRow _ _ _ _ hk, hlv]
              exact beq_self_eq_true v
            calc (m :: ms).countP ((fun row => getCell row k == v) ∘ joinedRow extra l)
                = (m :: ms).countP (fun _ => true) := List.countP_congr (by
                    intro r hr
                    have h1 : getCell (joinedRow extra l r) k = v := by
                      rw [getCell_joinedRow _ _ _ _ hk, hlv]
                    simp [Function.comp, h1])
              _ = (m :: ms).length := by simp [List.countP_true]
          rw [hcnt, ← hb]
          have hbpos : 1 ≤ rrows.countP fun r => getCell r k == v := by
            rw [hb]; simp
          have hmax : max 1 (rrows.countP fun r => getCell r k == v)
              = rrows.countP fun r => getCell r k == v := Nat.max_eq_right hbpos
          rw [hmax]
          have : (getCell l k == v) = true := by rw [hlv]; exact beq_self_eq_true v
          rw [if_pos this]
          ring
      · -- this left row has a different key value
        have hlv' : (getCell l k == v) = false := beq_eq_false_iff_ne.mpr hlv
        have hblock : (match rrows.filter (matchRowB [k] l) with
            | [] => [leftOnlyRow extra l]
            | ms => ms.map (joinedRow extra l)).countP (fun row => getCell row k == v) = 0 := by
          rcases hms : rrows.filter (matchRowB [k] l) with _ | ⟨m, ms⟩
          · refine List.countP_eq_zero.mpr fun row hrow => ?_
            simp only [List.mem_singleton] at hrow
            subst hrow
            rw [getCell_leftOnlyRow _ _ _ hk]
            simp [hlv']
          · refine List.countP_eq_zero.mpr fun row hrow => ?_
            rcases List.mem_map.mp hrow with ⟨r, _, hrrow⟩
            subst hrrow
            rw [getCell_joinedRow _ _ _ _ hk]
            simp [hlv']
        rw [hblock, if_neg (by simp [hlv'])]
        simp

theorem countP_rightOnly_key (L R : DF) (k : String) (v : Cell) (extra : List String)
    (hkL : k ∈ L.cols) :
    (((R.rows.filter fun r => L.rows.all fun l => ¬ matchRowB [k] l r).map
        (rightOnlyRow L.cols [k] extra)).countP fun row => getCell row k == v)
      = if (L.rows.countP fun l => getCell l k == v) = 0
        then (R.rows.countP fun r => getCell r k == v) else 0 := by
  rw [List.countP_map]
  have hkey : ∀ r : Row, getCell (rightOnlyRow L.cols [k] extra r) k = getCell r k := by
    intro r
    rw [getCell_rightOnlyRow _ _ _ _ _ hkL]
    simp
  have hcomp : ((R.rows.filter fun r => L.rows.all fun l => ¬ matchRowB [k] l r).countP
      ((fun row => getCell row k == v) ∘ rightOnlyRow L.cols [k] extra))
      = ((R.rows.filter fun r => L.rows.all fun l => ¬ matchRowB [k] l r).countP
        fun r => getCell r k == v) :=
    List.countP_congr fun r _ => by simp [Function.comp, hkey r]
  rw [hcomp, List.countP_filter]
  by_cases ha : (L.rows.countP fun l => getCell l k == v) = 0
  · rw [if_pos ha]
    refine List.countP_congr fun r _ => ?_
    constructor
    · intro h
      exact (Bool.and_eq_true _ _).mp h |>.1
    · intro h
      refine (Bool.and_eq_true _ _).mpr ⟨h, ?_⟩
      have hv : getCell r k = v := by simpa using h
      refine List.all_eq_true.mpr fun l hl => ?_
      have hlk : ¬ (getCell l k = v) := by
        have := List.countP_eq_zero.mp ha l hl
        simpa using this
      rw [matchRowB_single]
      simp only [decide_eq_true_eq]
      intro hmatch
      have : getCell l k = v := by
        have hb : getCell r k = getCell l k := by simpa using hmatch
        rw [← hb, hv]
      exact hlk this
  · rw [if_neg ha]
    refine List.countP_eq_zero.mpr fun r hr hand => ?_
    have h₁ := (Bool.and_eq_true _ _).mp hand
    have hv : getCell r k = v := by simpa using h₁.1
    have hnm := List.all_eq_true.mp h₁.2
    have hex : ∃ l ∈ L.rows, getCell l k = v := by
      by_contra hno
      push_neg at hno
      exact ha (List.countP_eq_zero.mpr fun l hl => by simpa using hno l hl)
    rcases hex with ⟨l, hl, hlv⟩
    have := hnm l hl
    rw [matchRowB_single] at this
    simp only [decide_eq_true_eq] at this
    exact this (by rw [hv, hlv]; exact beq_self_eq_true v)

theorem outerRows_key_countP (L R : DF) (k : String) (hkL : k ∈ L.cols) (v : Cell) :
    (outerRows L R [k]).countP (fun row => getCell row k == v)
      = contribution (keyCount L k v) (keyCount R k v) := by
  simp only [outerRows]
  rw [List.countP_append,
    countP_leftJoinRows_key R.rows k v _ (key_not_mem_rightExtra R.cols k) L.rows,
    countP_rightOnly_key L R k v _ hkL, keyCount_eq_countP, keyCount_eq_countP]
  unfold contribution
  by_cases ha : (L.rows.countP fun l => getCell l k == v) = 0
  · rw [ha]
    simp
  · rw [if_neg ha, if_neg ha]
    by_cases hb : (R.rows.countP fun r => getCell r k == v) = 0
    · rw [hb, if_pos rfl]
      simp
    · rw [if_neg hb, Nat.max_eq_right (Nat.one_le_iff_ne_zero.mpr hb)]
      simp

theorem sum_map_indicator_zero (a : Cell) (vs : List Cell) (ha : a ∉ vs) :
    (vs.map fun v => if (a == v) = true then 1 else 0).sum = 0 := by
  induction vs with
  | nil => simp
  | cons w ws ih =>
      have hw : a ≠ w := fun hh => ha (hh ▸ List.mem_cons_self w ws)
      have h1 : (a == w) = false := beq_eq_false_iff_ne.mpr hw
      rw [List.map_cons, List.sum_cons, ih fun hh => ha (List.mem_cons_of_mem w hh)]
      simp [h1]

theorem sum_map_indicator_one (a : Cell) (vs : List Cell) (hnd : vs.Nodup) (ha : a ∈ vs) :
    (vs.map fun v => if (a == v) = true then 1 else 0).sum = 1 := by
  induction vs with
  | nil => cases ha
  | cons w ws ih =>
      rw [List.map_cons, List.sum_cons]
      rcases List.mem_cons.mp ha with h | h
      · subst h
        rw [sum_map_indicator_zero a ws (List.nodup_cons.mp hnd).1]
        simp
      · have hw : a ≠ w := fun hh => (List.nodup_cons.mp hnd).1 (hh ▸ h)
        have h1 : (a == w) = false := beq_eq_false_iff_ne.mpr hw
        rw [ih (List.nodup_cons.mp hnd).2 h]
        simp [h1]

theorem length_eq_sum_countP (f : Row → Cell) (l : List Row) (vs : List Cell)
    (hnd : vs.Nodup) (hsub : ∀ x ∈ l, f x ∈ vs) :
    l.length = (vs.map fun v => l.countP fun x => f x == v).sum := by
  induction l with
  | nil => simp
  | cons x t ih =>
      have hx : f x ∈ vs := hsub x (List.mem_cons_self x t)
      rw [List.length_cons, ih fun y hy => hsub y (List.mem_cons_of_mem x hy)]
      have hsplit : (vs.map fun v => (x :: t).countP fun y => f y == v)
          = vs.map fun v => (t.countP fun y => f y == v) + (if (f x == v) = true then 1 else 0) :=
        List.map_congr_left fun v _ => List.countP_cons _ _ _
      rw [hsplit, List.sum_map_add, sum_map_indicator_one (f x) vs hnd hx]

theorem outerRows_key_mem (L R : DF) (k : String) (hkL : k ∈ L.cols) :
    ∀ row ∈ outerRows L R [k], getCell row k ∈ colValues L k ++ colValues R k := by
  intro row hrow
  simp only [outerRows] at hrow
  rcases List.mem_append.mp hrow with hL | hR
  · rcases mem_leftJoinRows hL with ⟨l, hl, hshape | ⟨r, hrmem, hshape⟩⟩
    · refine List.mem_append.mpr (Or.inl ?_)
      rw [hshape, getCell_leftOnlyRow _ _ _ (key_not_mem_rightExtra R.cols k)]
      exact List.mem_map.mpr ⟨l, hl, rfl⟩
    · refine List.mem_append.mpr (Or.inl ?_)
      rw [hshape, getCell_joinedRow _ _ _ _ (key_not_mem_rightExtra R.cols k)]
      exact List.mem_map.mpr ⟨l, hl, rfl⟩
  · rcases List.mem_map.mp hR with ⟨r, hrmem, hshape⟩
    refine List.mem_append.mpr (Or.inr ?_)
    rw [← hshape, getCell_rightOnlyRow _ _ _ _ _ hkL, if_pos (List.mem_singleton.mpr rfl)]
    exact List.mem_map.mpr ⟨r, List.mem_of_mem_filter hrmem, rfl⟩

/-- C5: in the debugger's step-by-step simulation — a full outer join of
two frames on a key column `k` — a key value occurring `a` times on the
left and `b` times on the right contributes exactly `a*b` result rows when
present on both sides (`a, b > 0`) and exactly its own count when present
on one side only; consequently the merged frame's total row count (the
`len(merged)` the debugger reports) equals the sum over all key values of
these contributions. -/
theorem claim_C5 (L R : DF) (k : String) (hkL : k ∈ L.cols) :
    (∀ v, (outerRows L R [k]).countP (fun row => getCell row k == v)
        = contribution (keyCount L k v) (keyCount R k v)) ∧
    (outerRows L R [k]).length = simulatedTotal L R k := by
  refine ⟨outerRows_key_countP L R k hkL, ?_⟩
  rw [length_eq_sum_countP (fun row => getCell row k) (outerRows L R [k])
      ((colValues L k ++ colValues R k).dedup) (List.nodup_dedup _)
      (fun row hrow => List.mem_dedup.mpr (outerRows_key_mem L R k hkL row hrow))]
  unfold simulatedTotal
  exact congrArg List.sum (List.map_congr_left fun v _ => outerRows_key_countP L R k hkL v)

/-- The left frame of the spec's scenario 3: key column `id = [1,1,2]`. -/
def scen3L : DF :=
  ⟨["id", "v1"], [[("id", some "1"), ("v1", some "a")],
                  [("id", some "1"), ("v1", some "b")],
                  [("id", some "2"), ("v1", some "c")]]⟩

/-- The right frame of the spec's scenario 3: key column `id = [1,2,2]`. -/
def scen3R : DF :=
  ⟨["id", "v2"], [[("id", some "1"), ("v2", some "p")],
                  [("id", some "2"), ("v2", some "q")],
                  [("id", some "2"), ("v2", some "r")]]⟩

/-- Witness for C5: the spec's scenario 3 — `id=[1,1,2]` against
`id=[1,2,2]` gives 2×1 + 1×2 = 4 outer-join rows, which is both the
modelled merge's row count and the simulated total. -/
theorem claim_C5_witness :
    ("id" ∈ scen3L.cols) ∧
    ((∀ v, (outerRows scen3L scen3R ["id"]).countP (fun row => getCell row "id" == v)
        = contribution (keyCount scen3L "id" v) (keyCount scen3R "id" v)) ∧
      (outerRows scen3L scen3R ["id"]).length = simulatedTotal scen3L scen3R "id") ∧
    (outerRows scen3L scen3R ["id"]).length = 4 := by
  refine ⟨by decide, claim_C5 scen3L scen3R "id" (by decide), by decide⟩

/-! ## The debugger's case/whitespace flags (§4.5 step 3) -/

theorem mem_foldr_append {α β : Type} (g : α → List β) (l : List α) (b : β) :
    b ∈ l.foldr (fun a acc => g a ++ acc) [] ↔ ∃ a ∈ l, b ∈ g a := by
  induction l with
  | nil => simp
  | cons x t ih => simp [List.mem_append, ih]

theorem mem_potentialJoinCols (csvs : List (String × DF)) (col : String) :
    col ∈ potentialJoinCols csvs ↔
      1 < csvs.countP fun p => decide (col ∈ p.2.cols) := by
  unfold potentialJoinCols
  rw [List.mem_filter]
  constructor
  · intro h
    simpa using h.2
  · intro h
    refine ⟨List.mem_dedup.mpr ?_, by simpa using h⟩
    have hex : ∃ p ∈ csvs, col ∈ p.2.cols := by
      by_contra hno
      push_neg at hno
      have hz : csvs.countP (fun p => decide (col ∈ p.2.cols)) = 0 :=
        List.countP_eq_zero.mpr fun p hp => by simpa using hno p hp
      omega
    exact (mem_foldr_append (fun p => p.2.cols) csvs col).mpr hex

theorem eq_of_mem_nodup_keys {l : List (String × DF)} (h : (l.map Prod.fst).Nodup)
    {n : String} {d1 d2 : DF} (h1 : (n, d1) ∈ l) (h2 : (n, d2) ∈ l) : d1 = d2 := by
  induction l with
  | nil => cases h1
  | cons p t ih =>
      rw [List.map_cons, List.nodup_cons] at h
      rcases List.mem_cons.mp h1 with he1 | ht1 <;> rcases List.mem_cons.mp h2 with he2 | ht2
      · rw [← he1] at he2
        exact congrArg Prod.snd he2.symm
      · exact absurd (List.mem_map.mpr ⟨(n, d2), ht2, (congrArg Prod.fst he1).symm.symm⟩) h.1
      · exact absurd (List.mem_map.mpr ⟨(n, d1), ht1, (congrArg Prod.fst he2).symm.symm⟩) h.1
      · exact ih h.2 ht1 ht2

/-- C8: for a dataset of the debugged collection and any column of it, the
debugger emits a case/whitespace-inconsistency flag for that
(column, dataset) pair iff the column is a candidate join column (appears
in more than one dataset) and its duplicate count on normalized values —
stringified, whitespace-trimmed, lower-cased — strictly exceeds the
duplicate count on raw values. -/
theorem claim_C8 (csvs : List (String × DF)) (name : String) (df : DF) (col : String)
    (hmem : (name, df) ∈ csvs) (hnames : (csvs.map Prod.fst).Nodup) :
    (col, name) ∈ caseWhitespaceFlags csvs ↔
      col ∈ potentialJoinCols csvs ∧ col ∈ df.cols ∧
        rawDupCount df col < normDupCount df col := by
  unfold caseWhitespaceFlags
  rw [mem_foldr_append]
  constructor
  · rintro ⟨c, hc, hin⟩
    rcases List.mem_filterMap.mp hin with ⟨p, hp, hcond⟩
    by_cases hcnd : c ∈ p.2.cols ∧ rawDupCount p.2 c < normDupCount p.2 c
    · rw [if_pos hcnd] at hcond
      have hcol : c = col := congrArg Prod.fst (Option.some.inj hcond)
      have hname : p.1 = name := congrArg Prod.snd (Option.some.inj hcond)
      have hpdf : p.2 = df := by
        refine eq_of_mem_nodup_keys hnames ?_ hmem
        rw [← hname]
        exact hp
      subst hcol
      rw [← hpdf]
      exact ⟨hc, hcnd.1, hcnd.2⟩
    · rw [if_neg hcnd] at hcond
      cases hcond
  · rintro ⟨hpot, hcol, hdup⟩
    refine ⟨col, hpot, List.mem_filterMap.mpr ⟨(name, df), hmem, ?_⟩⟩
    rw [if_pos ⟨hcol, hdup⟩]

/-- The debugged collection for the C8 witness: dataset `one` has key
values `"A"` and `"a "` (raw-distinct, equal after normalization). -/
def dbgCsvs : List (String × DF) :=
  [("one", ⟨["k", "u"], [[("k", some "A"), ("u", some "1")],
                         [("k", some "a "), ("u", some "2")]]⟩),
   ("two", ⟨["k", "w"], [[("k", some "a"), ("w", some "3")]]⟩)]

/-- Witness for C8: in `dbgCsvs`, column `k` of dataset `one` is flagged,
and indeed its normalized duplicate count (1) exceeds its raw one (0). -/
theorem claim_C8_witness :
    ("one", (DF.mk ["k", "u"] [[("k", some "A"), ("u", some "1")],
                               [("k", some "a "), ("u", some "2")]])) ∈ dbgCsvs ∧
    (dbgCsvs.map Prod.fst).Nodup ∧
    (("k", "one") ∈ caseWhitespaceFlags dbgCsvs ↔
      "k" ∈ potentialJoinCols dbgCsvs ∧
      "k" ∈ (DF.mk ["k", "u"] [[("k", some "A"), ("u", some "1")],
                               [("k", some "a "), ("u", some "2")]]).cols ∧
      rawDupCount (DF.mk ["k", "u"] [[("k", some "A"), ("u", some "1")],
                                     [("k", some "a "), ("u", some "2")]]) "k"
        < normDupCount (DF.mk ["k", "u"] [[("k", some "A"), ("u", some "1")],
                                          [("k", some "a "), ("u", some "2")]]) "k") ∧
    ("k", "one") ∈ caseWhitespaceFlags dbgCsvs := by
  refine ⟨by decide, by decide, claim_C8 dbgCsvs "one" _ "k" (by decide) (by decide), by decide⟩

/-! ## The connection graph (§4.2) -/

/-- The column set schemas associate with name `n` (`∅` when absent). -/
def schemaColset (schemas : List (String × Finset String)) (n : String) : Finset String :=
  ((schemas.find? fun p => p.1 = n).map Prod.snd).getD ∅

/-- The stored column set of the dataset named `n`. -/
def colsetOf (csvs : List Dataset) (n : String) : Finset String :=
  schemaColset (csvs.map Dataset.schema) n

/-- Does an edge connect the unordered pair of names A and B? -/
def touchesB (A B : String) (e : MergeEdge) : Bool :=
  (e.csv1 = A ∧ e.csv2 = B) ∨ (e.csv1 = B ∧ e.csv2 = A)

theorem schema_keys (csvs : List Dataset) :
    (csvs.map Dataset.schema).map Prod.fst = csvs.map Dataset.name := by
  rw [List.map_map]
  rfl

theorem schemaColset_head (n : String) (s : Finset String)
    (rest : List (String × Finset String)) :
    schemaColset ((n, s) :: rest) n = s := by
  simp [schemaColset, List.find?]

theorem schemaColset_cons_ne (n x : String) (s : Finset String)
    (rest : List (String × Finset String)) (hne : x ≠ n) :
    schemaColset ((n, s) :: rest) x = schemaColset rest x := by
  have h : (decide (n = x)) = false := decide_eq_false fun hh => hne hh.symm
  simp [schemaColset, List.find?, h]

theorem find?_eq_of_mem_nodup {schemas : List (String × Finset String)}
    (hnd : (schemas.map Prod.fst).Nodup) {p : String × Finset String} (hp : p ∈ schemas) :
    (schemas.find? fun q => q.1 = p.1) = some p := by
  induction schemas with
  | nil => cases hp
  | cons q rest ih =>
      rw [List.map_cons, List.nodup_cons] at hnd
      rcases List.mem_cons.mp hp with he | ht
      · subst he
        simp [List.find?]
      · have hne : q.1 ≠ p.1 :=
          fun hh => hnd.1 (hh ▸ List.mem_map.mpr ⟨p, ht, rfl⟩)
        have hd : (decide (q.1 = p.1)) = false := decide_eq_false hne
        simp only [List.find?, hd]
        exact ih hnd.2 ht

theorem schemaColset_of_mem {schemas : List (String × Finset String)}
    (hnd : (schemas.map Prod.fst).Nodup) {p : String × Finset String} (hp : p ∈ schemas) :
    schemaColset schemas p.1 = p.2 := by
  rw [schemaColset, find?_eq_of_mem_nodup hnd hp]
  rfl

theorem mem_pairScan_block {n : String} {s : Finset String}
    {rest : List (String × Finset String)} {e : MergeEdge} :
    e ∈ (rest.filterMap fun p =>
        if s ∩ p.2 ≠ ∅ then some ⟨n, p.1, s ∩ p.2⟩ else none) ↔
      ∃ q ∈ rest, s ∩ q.2 ≠ ∅ ∧ e = ⟨n, q.1, s ∩ q.2⟩ := by
  rw [List.mem_filterMap]
  constructor
  · rintro ⟨q, hq, hcond⟩
    by_cases hc : s ∩ q.2 ≠ ∅
    · rw [if_pos hc] at hcond
      exact ⟨q, hq, hc, (Option.some.inj hcond).symm⟩
    · rw [if_neg hc] at hcond
      cases hcond
  · rintro ⟨q, hq, hc, he⟩
    exact ⟨q, hq, by rw [if_pos hc, he]⟩

theorem pairScan_endpoints {schemas : List (String × Finset String)} :
    ∀ e ∈ pairScanAux schemas,
      e.csv1 ∈ schemas.map Prod.fst ∧ e.csv2 ∈ schemas.map Prod.fst ∧ e.shared ≠ ∅ := by
  induction schemas with
  | nil => intro e he; cases he
  | cons q rest ih =>
      intro e he
      rw [pairScanAux, List.mem_append] at he
      rcases he with hb | ht
      · rcases mem_pairScan_block.mp hb with ⟨p, hp, hc, hee⟩
        subst hee
        exact ⟨List.mem_cons_self _ _,
          List.mem_cons_of_mem _ (List.mem_map.mpr ⟨p, hp, rfl⟩), hc⟩
      · rcases ih e ht with ⟨h1, h2, h3⟩
        exact ⟨List.mem_cons_of_mem _ h1, List.mem_cons_of_mem _ h2, h3⟩

theorem pairScan_countP_touches_zero {schemas : List (String × Finset String)}
    {A B : String} (h : A ∉ schemas.map Prod.fst ∨ B ∉ schemas.map Prod.fst) :
    (pairScanAux schemas).countP (touchesB A B) = 0 := by
  refine List.countP_eq_zero.mpr fun e he => ?_
  have hend := pairScan_endpoints e he
  intro htrue
  have ht : (e.csv1 = A ∧ e.csv2 = B) ∨ (e.csv1 = B ∧ e.csv2 = A) := by
    simpa [touchesB] using htrue
  rcases h with hA | hB
  · rcases ht with ⟨h1, _⟩ | ⟨_, h2⟩
    · exact hA (h1 ▸ hend.1)
    · exact hA (h2 ▸ hend.2.1)
  · rcases ht with ⟨_, h2⟩ | ⟨h1, _⟩
    · exact hB (h2 ▸ hend.2.1)
    · exact hB (h1 ▸ hend.1)

theorem touchesB_comm (A B : String) (e : MergeEdge) :
    touchesB A B e = touchesB B A e := by
  by_cases h : (e.csv1 = A ∧ e.csv2 = B) ∨ (e.csv1 = B ∧ e.csv2 = A)
  · have h' : (e.csv1 = B ∧ e.csv2 = A) ∨ (e.csv1 = A ∧ e.csv2 = B) := h.symm
    simp [touchesB, h, h']
  · have h' : ¬ ((e.csv1 = B ∧ e.csv2 = A) ∨ (e.csv1 = A ∧ e.csv2 = B)) :=
      fun hh => h hh.symm
    simp [touchesB, h, h']

theorem countP_touches_firstBlock (rest : List (String × Finset String))
    (n : String) (s : Finset String) (B : String)
    (hnB : n ∉ rest.map Prod.fst) (hnd : (rest.map Prod.fst).Nodup) :
    ((rest.filterMap fun p =>
        if s ∩ p.2 ≠ ∅ then some ⟨n, p.1, s ∩ p.2⟩ else none).countP (touchesB n B))
      = if B ∈ rest.map Prod.fst ∧ s ∩ schemaColset rest B ≠ ∅ then 1 else 0 := by
  induction rest with
  | nil => simp
  | cons q rest ih =>
      rw [List.map_cons, List.nodup_cons] at hnd
      have hnB' : n ∉ rest.map Prod.fst := fun hh => hnB (List.mem_cons_of_mem _ hh)
      have hnq : n ≠ q.1 := fun hh => hnB (hh ▸ List.mem_cons_self _ _)
      rw [List.filterMap_cons]
      by_cases hqB : q.1 = B
      · -- the head entry is the one named B
        have hBrest : B ∉ rest.map Prod.fst := hqB ▸ hnd.1
        have hrec : ((rest.filterMap fun p =>
            if s ∩ p.2 ≠ ∅ then some ⟨n, p.1, s ∩ p.2⟩ else none).countP (touchesB n B)) = 0 := by
          rw [ih hnB' hnd.2, if_neg]
          intro hh
          exact hBrest hh.1
        by_cases hc : s ∩ q.2 ≠ ∅
        · rw [if_pos hc, List.countP_cons, hrec]
          have htr : touchesB n B ⟨n, q.1, s ∩ q.2⟩ = true := by
            simp [touchesB, hqB]
          rw [htr, if_pos rfl]
          have hcol : schemaColset (q :: rest) B = q.2 := by
            obtain ⟨q1, q2⟩ := q
            subst hqB
            exact schemaColset_head _ _ rest
          rw [if_pos ⟨hqB ▸ List.mem_cons_self q.1 (rest.map Prod.fst), by rw [hcol]; exact hc⟩]
        · rw [if_neg hc, hrec]
          have hcol : schemaColset (q :: rest) B = q.2 := by
            obtain ⟨q1, q2⟩ := q
            subst hqB
            exact schemaColset_head _ _ rest
          rw [if_neg]
          intro hh
          rw [hcol] at hh
          exact hc hh.2
      · -- the head entry is not named B
        have hmem : (B ∈ (q :: rest).map Prod.fst ∧ s ∩ schemaColset (q :: rest) B ≠ ∅)
            ↔ (B ∈ rest.map Prod.fst ∧ s ∩ schemaColset rest B ≠ ∅) := by
          obtain ⟨q1, q2⟩ := q
          have hq1 : q1 ≠ B := hqB
          rw [schemaColset_cons_ne q1 B q2 rest (Ne.symm hq1)]
          constructor
          · rintro ⟨h1, h2⟩
            rcases List.mem_cons.mp h1 with he | ht
            · exact absurd he.symm hq1
            · exact ⟨ht, h2⟩
          · rintro ⟨h1, h2⟩
            exact ⟨List.mem_cons_of_mem _ h1, h2⟩
        rw [if_congr hmem rfl rfl]
        by_cases hc : s ∩ q.2 ≠ ∅
        · rw [if_pos hc, List.countP_cons]
          have htr : touchesB n B ⟨n, q.1, s ∩ q.2⟩ = false := by
            simp only [touchesB]
            rw [decide_eq_false]
            rintro (hh | hh)
            · exact hqB hh.2
            · exact hnq hh.2.symm
          rw [htr, if_neg (by simp), Nat.add_zero]
          exact ih hnB' hnd.2
        · rw [if_neg hc]
          exact ih hnB' hnd.2

theorem pairScan_countP_touches (schemas : List (String × Finset String))
    (hnd : (schemas.map Prod.fst).Nodup) (A B : String)
    (hA : A ∈ schemas.map Prod.fst) (hB : B ∈ schemas.map Prod.fst) :
    (pairScanAux schemas).countP (touchesB A B)
      = if A ≠ B ∧ schemaColset schemas A ∩ schemaColset schemas B ≠ ∅
        then 1 else 0 := by
  induction schemas with
  | nil => cases hA
  | cons q rest ih =>
      obtain ⟨n, s⟩ := q
      rw [List.map_cons, List.nodup_cons] at hnd
      rw [pairScanAux, List.countP_append]
      by_cases hAn : A = n
      · subst hAn
        have hrec : (pairScanAux rest).countP (touchesB A B) = 0 :=
          pairScan_countP_touches_zero (Or.inl hnd.1)
        rw [hrec, Nat.add_zero,
          countP_touches_firstBlock rest A s B hnd.1 hnd.2, schemaColset_head]
        by_cases hBn : B = A
        · subst hBn
          rw [if_neg (fun hh => hnd.1 hh.1), if_neg (fun hh => hh.1 rfl)]
        · have hBrest : B ∈ rest.map Prod.fst := by
            rcases List.mem_cons.mp hB with he | ht
            · exact absurd he hBn
            · exact ht
          rw [schemaColset_cons_ne A B s rest hBn]
          refine if_congr ?_ rfl rfl
          constructor
          · rintro ⟨-, h2⟩
            exact ⟨fun hh => hBn hh.symm, h2⟩
          · rintro ⟨-, h2⟩
            exact ⟨hBrest, h2⟩
      · have hArest : A ∈ rest.map Prod.fst := by
          rcases List.mem_cons.mp hA with he | ht
          · exact absurd he hAn
          · exact ht
        rw [schemaColset_cons_ne n A s rest hAn]
        by_cases hBn : B = n
        · subst hBn
          have hcomm : ((rest.filterMap fun p =>
              if s ∩ p.2 ≠ ∅ then some ⟨B, p.1, s ∩ p.2⟩ else none).countP (touchesB A B))
              = ((rest.filterMap fun p =>
              if s ∩ p.2 ≠ ∅ then some ⟨B, p.1, s ∩ p.2⟩ else none).countP (touchesB B A)) :=
            List.countP_congr fun e _ => by rw [touchesB_comm]
          rw [hcomm, countP_touches_firstBlock rest B s A hnd.1 hnd.2,
            pairScan_countP_touches_zero (Or.inr hnd.1), Nat.add_zero, schemaColset_head]
          refine if_congr ?_ rfl rfl
          constructor
          · rintro ⟨-, h2⟩
            exact ⟨hAn, by rwa [Finset.inter_comm]⟩
          · rintro ⟨-, h2⟩
            exact ⟨hArest, by rwa [Finset.inter_comm]⟩
        · have hBrest : B ∈ rest.map Prod.fst := by
            rcases List.mem_cons.mp hB with he | ht
            · exact absurd he hBn
            · exact ht
          rw [schemaColset_cons_ne n B s rest hBn]
          have hblock : ((rest.filterMap fun p =>
              if s ∩ p.2 ≠ ∅ then some ⟨n, p.1, s ∩ p.2⟩ else none).countP (touchesB A B)) = 0 := by
            refine List.countP_eq_zero.mpr fun e he => ?_
            rcases mem_pairScan_block.mp he with ⟨p, _, _, hee⟩
            subst hee
            intro htrue
            have ht : (n = A ∧ p.1 = B) ∨ (n = B ∧ p.1 = A) := by
              simpa [touchesB] using htrue
            rcases ht with ⟨h1, _⟩ | ⟨h1, _⟩
            · exact hAn h1.symm
            · exact hBn h1.symm
          rw [hblock, Nat.zero_add]
          exact ih hnd.2 hArest hBrest

theorem pairScan_label {schemas : List (String × Finset String)}
    (hnd : (schemas.map Prod.fst).Nodup) :
    ∀ e ∈ pairScanAux schemas,
      e.csv1 ≠ e.csv2 ∧
      e.shared = schemaColset schemas e.csv1 ∩ schemaColset schemas e.csv2 := by
  induction schemas with
  | nil => intro e he; cases he
  | cons q rest ih =>
      obtain ⟨n, s⟩ := q
      rw [List.map_cons, List.nodup_cons] at hnd
      intro e he
      rw [pairScanAux, List.mem_append] at he
      rcases he with hb | ht
      · rcases mem_pairScan_block.mp hb with ⟨p, hp, hc, hee⟩
        subst hee
        have hp1 : p.1 ∈ rest.map Prod.fst := List.mem_map.mpr ⟨p, hp, rfl⟩
        have hne : n ≠ p.1 := fun hh => hnd.1 (hh ▸ hp1)
        refine ⟨hne, ?_⟩
        show s ∩ p.2 = schemaColset ((n, s) :: rest) n ∩ schemaColset ((n, s) :: rest) p.1
        rw [schemaColset_head, schemaColset_cons_ne n p.1 s rest (Ne.symm hne),
          schemaColset_of_mem hnd.2 hp]
      · have hres := ih hnd.2 e ht
        have h1 := (pairScan_endpoints e ht).1
        have h2 := (pairScan_endpoints e ht).2.1
        refine ⟨hres.1, ?_⟩
        rw [hres.2, schemaColset_cons_ne n e.csv1 s rest (fun hh => hnd.1 (hh ▸ h1)),
          schemaColset_cons_ne n e.csv2 s rest (fun hh => hnd.1 (hh ▸ h2))]

/-- C3: in the connection graph over datasets with distinct names, any two
dataset names A and B are linked by an edge iff A ≠ B and their column
sets intersect, that edge is unique (the edge list holds exactly one edge
of the unordered pair, else none), its label is exactly the intersection
of the two column sets (a `Finset`, hence order-insensitive), and no edge
is a self-loop. -/
theorem claim_C3 (csvs : List Dataset) (hnd : (csvs.map Dataset.name).Nodup)
    (A B : String) (hA : A ∈ csvs.map Dataset.name) (hB : B ∈ csvs.map Dataset.name) :
    ((graphEdges csvs).countP (touchesB A B)
        = if A ≠ B ∧ colsetOf csvs A ∩ colsetOf csvs B ≠ ∅ then 1 else 0) ∧
    (∀ e ∈ graphEdges csvs, touchesB A B e = true →
        e.shared = colsetOf csvs A ∩ colsetOf csvs B) ∧
    (∀ e ∈ graphEdges csvs, e.csv1 ≠ e.csv2) := by
  have hkeys : (csvs.map Dataset.schema).map Prod.fst = csvs.map Dataset.name :=
    schema_keys csvs
  have hnd' : ((csvs.map Dataset.schema).map Prod.fst).Nodup := by
    rw [hkeys]; exact hnd
  refine ⟨?_, ?_, ?_⟩
  · exact pairScan_countP_touches _ hnd' A B (by rw [hkeys]; exact hA)
      (by rw [hkeys]; exact hB)
  · intro e he htr
    have hl := (pairScan_label hnd' e he).2
    have ht : (e.csv1 = A ∧ e.csv2 = B) ∨ (e.csv1 = B ∧ e.csv2 = A) := by
      simpa [touchesB] using htr
    rcases ht with ⟨h1, h2⟩ | ⟨h1, h2⟩
    · rw [hl, h1, h2]
      rfl
    · rw [hl, h1, h2, Finset.inter_comm]
      rfl
  · intro e he
    exact (pairScan_label hnd' e he).1

/-- Scenario 1 of the spec: A(id,name), B(id,age), C(age,city). -/
def scen1csvs : List Dataset :=
  [⟨"A", ["id", "name"], []⟩, ⟨"B", ["id", "age"], []⟩, ⟨"C", ["age", "city"], []⟩]

/-- Witness for C3 at scenario 1, pair (A, C): their column sets are
disjoint, so the graph holds no A–C edge (count 0), and no self-loops. -/
theorem claim_C3_witness :
    ((scen1csvs.map Dataset.name).Nodup ∧ "A" ∈ scen1csvs.map Dataset.name ∧
      "C" ∈ scen1csvs.map Dataset.name) ∧
    (((graphEdges scen1csvs).countP (touchesB "A" "C")
        = if "A" ≠ "C" ∧ colsetOf scen1csvs "A" ∩ colsetOf scen1csvs "C" ≠ ∅
          then 1 else 0) ∧
      (∀ e ∈ graphEdges scen1csvs, touchesB "A" "C" e = true →
        e.shared = colsetOf scen1csvs "A" ∩ colsetOf scen1csvs "C") ∧
      (∀ e ∈ graphEdges scen1csvs, e.csv1 ≠ e.csv2)) :=
  ⟨⟨by decide, by decide, by decide⟩,
    claim_C3 scen1csvs (by decide) "A" "C" (by decide) (by decide)⟩

/-! ## Kruskal fold invariants -/

/-- Two names are adjacent via some edge of the list (either orientation). -/
def edgeAdj (L : List MergeEdge) (x y : String) : Prop :=
  ∃ e ∈ L, (e.csv1 = x ∧ e.csv2 = y) ∨ (e.csv1 = y ∧ e.csv2 = x)

/-- Connectivity along the edges of a list. -/
def Reach (L : List MergeEdge) : String → String → Prop :=
  Relation.ReflTransGen (edgeAdj L)

theorem edgeAdj_symm {L : List MergeEdge} {x y : String} (h : edgeAdj L x y) :
    edgeAdj L y x := by
  rcases h with ⟨e, he, hor⟩
  exact ⟨e, he, hor.symm⟩

theorem Reach_symm {L : List MergeEdge} {x y : String} (h : Reach L x y) :
    Reach L y x :=
  Relation.ReflTransGen.symmetric (fun _ _ hh => edgeAdj_symm hh) h

theorem Reach_of_adj {L : List MergeEdge} {x y : String} (h : edgeAdj L x y) :
    Reach L x y :=
  Relation.ReflTransGen.single h

theorem Reach_mono {L L' : List MergeEdge}
    (h : ∀ x y, edgeAdj L x y → edgeAdj L' x y) {x y : String} :
    Reach L x y → Reach L' x y :=
  Relation.ReflTransGen.mono (fun _ _ hh => h _ _ hh)

theorem krFold_cons_reject {f : String → String} {e : MergeEdge}
    (rest : List MergeEdge) (h : f e.csv1 = f e.csv2) :
    krFold (e :: rest) f = krFold rest f := by
  simp [krFold, ufStep, h]

theorem krFold_cons_accept {f : String → String} {e : MergeEdge}
    (rest : List MergeEdge) (h : ¬ f e.csv1 = f e.csv2) :
    krFold (e :: rest) f =
      ((krFold rest fun x => if f x = f e.csv1 then f e.csv2 else f x).1,
        e :: (krFold rest fun x => if f x = f e.csv1 then f e.csv2 else f x).2) := by
  simp [krFold, ufStep, h]

theorem krFold_pres (L : List MergeEdge) :
    ∀ (f : String → String) (x y : String), f x = f y →
      (krFold L f).1 x = (krFold L f).1 y := by
  induction L with
  | nil => intro f x y h; exact h
  | cons e rest ih =>
      intro f x y h
      by_cases hc : f e.csv1 = f e.csv2
      · rw [krFold_cons_reject rest hc]
        exact ih f x y h
      · rw [krFold_cons_accept rest hc]
        exact ih _ x y (by simp only [h])

theorem krFold_edge_eq (L : List MergeEdge) :
    ∀ (f : String → String), ∀ e ∈ L, (krFold L f).1 e.csv1 = (krFold L f).1 e.csv2 := by
  induction L with
  | nil => intro f e he; cases he
  | cons e₀ rest ih =>
      intro f e he
      rcases List.mem_cons.mp he with heq | ht
      · subst heq
        by_cases hc : f e.csv1 = f e.csv2
        · rw [krFold_cons_reject rest hc]
          exact krFold_pres rest f _ _ hc
        · rw [krFold_cons_accept rest hc]
          refine krFold_pres rest _ _ _ ?_
          show (if f e.csv1 = f e.csv1 then f e.csv2 else f e.csv1)
              = (if f e.csv2 = f e.csv1 then f e.csv2 else f e.csv2)
          rw [if_pos rfl, if_neg fun hh => hc hh.symm]
      · by_cases hc : f e₀.csv1 = f e₀.csv2
        · rw [krFold_cons_reject rest hc]
          exact ih f e ht
        · rw [krFold_cons_accept rest hc]
          exact ih _ e ht

theorem krFold_complete {L : List MergeEdge} {x y : String} (h : Reach L x y)
    (f : String → String) : (krFold L f).1 x = (krFold L f).1 y := by
  induction h with
  | refl => rfl
  | tail hxb hadj ih =>
      rcases hadj with ⟨e, he, ⟨h1, h2⟩ | ⟨h1, h2⟩⟩
      · exact ih.trans (h1 ▸ h2 ▸ krFold_edge_eq L f e he)
      · exact ih.trans (h1 ▸ h2 ▸ (krFold_edge_eq L f e he).symm)

theorem krFold_sound (FULL : List MergeEdge) :
    ∀ (L : List MergeEdge) (f : String → String),
      (∀ e ∈ L, e ∈ FULL) →
      (∀ x y, f x = f y → Reach FULL x y) →
      ∀ x y, (krFold L f).1 x = (krFold L f).1 y → Reach FULL x y := by
  intro L
  induction L with
  | nil => intro f _ hf x y h; exact hf x y h
  | cons e rest ih =>
      intro f hsub hf x y h
      have hefull : e ∈ FULL := hsub e (List.mem_cons_self _ _)
      have hsub' : ∀ e' ∈ rest, e' ∈ FULL := fun e' he' => hsub e' (List.mem_cons_of_mem _ he')
      by_cases hc : f e.csv1 = f e.csv2
      · rw [krFold_cons_reject rest hc] at h
        exact ih f hsub' hf x y h
      · rw [krFold_cons_accept rest hc] at h
        refine ih _ hsub' ?_ x y h
        intro a b hab
        by_cases ha : f a = f e.csv1 <;> by_cases hb : f b = f e.csv1
        · exact hf a b (ha.trans hb.symm)
        · rw [if_pos ha, if_neg hb] at hab
          exact ((hf a e.csv1 ha).trans
            (Reach_of_adj ⟨e, hefull, Or.inl ⟨rfl, rfl⟩⟩)).trans
            (Reach_symm (hf b e.csv2 hab.symm))
        · rw [if_neg ha, if_pos hb] at hab
          exact ((hf a e.csv2 hab).trans
            (Reach_symm (Reach_of_adj ⟨e, hefull, Or.inl ⟨rfl, rfl⟩⟩))).trans
            (Reach_symm (hf b e.csv1 hb))
        · rw [if_neg ha, if_neg hb] at hab
          exact hf a b hab

theorem krFold_acc_sub (L : List MergeEdge) :
    ∀ (f : String → String), ∀ e ∈ (krFold L f).2, e ∈ L := by
  induction L with
  | nil => intro f e he; cases he
  | cons e₀ rest ih =>
      intro f e he
      by_cases hc : f e₀.csv1 = f e₀.csv2
      · rw [krFold_cons_reject rest hc] at he
        exact List.mem_cons_of_mem _ (ih f e he)
      · rw [krFold_cons_accept rest hc] at he
        rcases List.mem_cons.mp he with heq | ht
        · exact heq ▸ List.mem_cons_self _ _
        · exact List.mem_cons_of_mem _ (ih _ e ht)

theorem krFold_untouched (L : List MergeEdge) :
    ∀ (f : String → String) (u : String),
      (∀ e ∈ (krFold L f).2, e.csv1 ≠ u ∧ e.csv2 ≠ u) →
      (∀ x, f x = u ↔ x = u) →
      ∀ x, (krFold L f).1 x = u ↔ x = u := by
  induction L with
  | nil => intro f u _ hinv x; exact hinv x
  | cons e rest ih =>
      intro f u hacc hinv x
      by_cases hc : f e.csv1 = f e.csv2
      · rw [krFold_cons_reject rest hc] at hacc ⊢
        exact ih f u hacc hinv x
      · rw [krFold_cons_accept rest hc] at hacc ⊢
        have hme : e.csv1 ≠ u ∧ e.csv2 ≠ u := hacc e (List.mem_cons_self _ _)
        have hacc' := fun e' he' => hacc e' (List.mem_cons_of_mem _ he')
        refine ih _ u hacc' ?_ x
        intro z
        constructor
        · intro hz
          by_cases hb : f z = f e.csv1
          · rw [if_pos hb] at hz
            exact absurd ((hinv e.csv2).mp hz) hme.2
          · rw [if_neg hb] at hz
            exact (hinv z).mp hz
        · intro hz
          have hzu : f z = u := (hinv z).mpr hz
          have hb : f z ≠ f e.csv1 := by
            intro hb
            have : f e.csv1 = u := hb ▸ hzu
            exact hme.1 ((hinv e.csv1).mp this)
          rw [if_neg hb]
          exact hzu

/-- Number of distinct component representatives among the nodes. -/
def classCount (f : String → String) (ns : List String) : ℕ :=
  ((ns.map f).toFinset).card

theorem image_merge (f : String → String) (u v : String) (ns : List String)
    (hv : v ∈ ns) (hne : ¬ f u = f v) :
    ((ns.map fun x => if f x = f u then f v else f x).toFinset)
      = insert (f v) (((ns.map f).toFinset).erase (f u)) := by
  ext y
  simp only [List.mem_toFinset, List.mem_map, Finset.mem_insert, Finset.mem_erase]
  constructor
  · rintro ⟨x, hx, hxy⟩
    by_cases hc : f x = f u
    · rw [if_pos hc] at hxy
      exact Or.inl hxy.symm
    · rw [if_neg hc] at hxy
      exact Or.inr ⟨hxy ▸ hc, ⟨x, hx, hxy⟩⟩
  · rintro (hy | ⟨hyne, x, hx, hxy⟩)
    · refine ⟨v, hv, ?_⟩
      rw [if_neg fun hh => hne hh.symm, hy]
    · refine ⟨x, hx, ?_⟩
      rw [if_neg fun hh => hyne (hxy ▸ hh), hxy]

theorem krFold_count (ns : List String) :
    ∀ (L : List MergeEdge) (f : String → String),
      (∀ e ∈ L, e.csv1 ∈ ns ∧ e.csv2 ∈ ns) →
      classCount (krFold L f).1 ns + (krFold L f).2.length = classCount f ns := by
  intro L
  induction L with
  | nil => intro f _; simp [krFold]
  | cons e rest ih =>
      intro f hend
      have hend' := fun e' he' => hend e' (List.mem_cons_of_mem _ he')
      by_cases hc : f e.csv1 = f e.csv2
      · rw [krFold_cons_reject rest hc]
        exact ih f hend'
      · rw [krFold_cons_accept rest hc]
        have h1 := hend e (List.mem_cons_self _ _)
        have himg := image_merge f e.csv1 e.csv2 ns h1.2 hc
        have hcard : classCount (fun x => if f x = f e.csv1 then f e.csv2 else f x) ns
            = classCount f ns - 1 := by
          unfold classCount
          rw [himg]
          have hvmem : f e.csv2 ∈ ((ns.map f).toFinset).erase (f e.csv1) := by
            refine Finset.mem_erase.mpr ⟨fun hh => hc hh.symm, ?_⟩
            exact List.mem_toFinset.mpr (List.mem_map.mpr ⟨e.csv2, h1.2, rfl⟩)
          rw [Finset.insert_eq_self.mpr hvmem,
            Finset.card_erase_of_mem
              (List.mem_toFinset.mpr (List.mem_map.mpr ⟨e.csv1, h1.1, rfl⟩))]
        have hument : f e.csv1 ∈ (ns.map f).toFinset :=
          List.mem_toFinset.mpr (List.mem_map.mpr ⟨e.csv1, h1.1, rfl⟩)
        have hpos : 1 ≤ classCount f ns :=
          Finset.card_pos.mpr ⟨f e.csv1, hument⟩
        have := ih (fun x => if f x = f e.csv1 then f e.csv2 else f x) hend'
        simp only [List.length_cons]
        omega

/-! ## Node order and edge-listing order -/

theorem mem_dedupFirstAux (l : List String) :
    ∀ (seen : List String) (x : String),
      x ∈ dedupFirstAux seen l ↔ x ∈ l ∧ x ∉ seen := by
  induction l with
  | nil => intro seen x; simp [dedupFirstAux]
  | cons a t ih =>
      intro seen x
      rw [dedupFirstAux]
      by_cases ha : a ∈ seen
      · rw [if_pos ha, ih seen x]
        constructor
        · rintro ⟨h1, h2⟩
          exact ⟨List.mem_cons_of_mem _ h1, h2⟩
        · rintro ⟨h1, h2⟩
          rcases List.mem_cons.mp h1 with he | ht
          · exact absurd (he ▸ ha) h2
          · exact ⟨ht, h2⟩
      · rw [if_neg ha]
        constructor
        · intro h
          rcases List.mem_cons.mp h with he | ht
          · refine ⟨?_, ?_⟩
            · rw [he]
              exact List.mem_cons_self _ _
            · rw [he]
              exact ha
          · rcases (ih (a :: seen) x).mp ht with ⟨h1, h2⟩
            exact ⟨List.mem_cons_of_mem _ h1,
              fun hh => h2 (List.mem_cons_of_mem _ hh)⟩
        · rintro ⟨h1, h2⟩
          rcases List.mem_cons.mp h1 with he | ht
          · rw [he]
            exact List.mem_cons_self _ _
          · by_cases hx : x = a
            · rw [hx]
              exact List.mem_cons_self _ _
            · refine List.mem_cons_of_mem _ ((ih (a :: seen) x).mpr ⟨ht, ?_⟩)
              intro hh
              rcases List.mem_cons.mp hh with h3 | h3
              · exact hx h3
              · exact h2 h3

theorem mem_dedupFirst (l : List String) (x : String) : x ∈ dedupFirst l ↔ x ∈ l := by
  rw [dedupFirst, mem_dedupFirstAux]
  simp

theorem nodup_dedupFirstAux (l : List String) :
    ∀ seen : List String, (dedupFirstAux seen l).Nodup := by
  induction l with
  | nil => intro seen; exact List.nodup_nil
  | cons a t ih =>
      intro seen
      rw [dedupFirstAux]
      by_cases ha : a ∈ seen
      · rw [if_pos ha]
        exact ih seen
      · rw [if_neg ha]
        refine List.nodup_cons.mpr ⟨?_, ih (a :: seen)⟩
        intro hmem
        exact ((mem_dedupFirstAux t (a :: seen) a).mp hmem).2 (List.mem_cons_self _ _)

theorem nodup_dedupFirst (l : List String) : (dedupFirst l).Nodup :=
  nodup_dedupFirstAux l []

theorem mem_edgeNodesSeq (E : List MergeEdge) (x : String) :
    x ∈ edgeNodesSeq E ↔ ∃ e ∈ E, x = e.csv1 ∨ x = e.csv2 := by
  induction E with
  | nil => simp [edgeNodesSeq]
  | cons e t ih =>
      show x ∈ e.csv1 :: e.csv2 :: edgeNodesSeq t ↔ _
      simp only [List.mem_cons, ih]
      constructor
      · rintro (h | h | ⟨e', he', h⟩)
        · exact ⟨e, Or.inl rfl, Or.inl h⟩
        · exact ⟨e, Or.inl rfl, Or.inr h⟩
        · exact ⟨e', Or.inr he', h⟩
      · rintro ⟨e', heq | ht, h⟩
        · subst heq
          rcases h with h | h
          · exact Or.inl h
          · exact Or.inr (Or.inl h)
        · exact Or.inr (Or.inr ⟨e', ht, h⟩)

theorem mem_nodeOrder (names : List String) (E : List MergeEdge)
    (hsub : ∀ e ∈ E, e.csv1 ∈ names ∧ e.csv2 ∈ names) (x : String) :
    x ∈ nodeOrder names E ↔ x ∈ names := by
  unfold nodeOrder
  constructor
  · intro h
    rcases List.mem_append.mp h with h | h
    · rcases (mem_edgeNodesSeq E x).mp ((mem_dedupFirst _ x).mp h) with ⟨e, he, hx | hx⟩
      · exact hx ▸ (hsub e he).1
      · exact hx ▸ (hsub e he).2
    · exact (List.mem_filter.mp h).1
  · intro h
    by_cases hx : x ∈ dedupFirst (edgeNodesSeq E)
    · exact List.mem_append.mpr (Or.inl hx)
    · refine List.mem_append.mpr (Or.inr (List.mem_filter.mpr ⟨h, ?_⟩))
      simpa using hx

theorem nodup_nodeOrder (names : List String) (E : List MergeEdge)
    (hnd : names.Nodup) : (nodeOrder names E).Nodup := by
  unfold nodeOrder
  refine List.Nodup.append (nodup_dedupFirst _) (hnd.filter _) ?_
  refine List.disjoint_left.mpr fun a ha hb => ?_
  have h2 := (List.mem_filter.mp hb).2
  simp only [decide_eq_true_eq] at h2
  exact h2 ha

theorem mem_listEdgesAt {ns : List String} {u : String} {L : List MergeEdge} {e' : MergeEdge} :
    e' ∈ listEdgesAt ns u L ↔
      ∃ e ∈ L,
        (e' = e ∧ e.csv1 = u ∧ idxOf ns u < idxOf ns e.csv2) ∨
        (e' = ⟨e.csv2, e.csv1, e.shared⟩ ∧ e.csv2 = u ∧ idxOf ns u < idxOf ns e.csv1) := by
  rw [listEdgesAt, List.mem_filterMap]
  constructor
  · rintro ⟨e, he, hcond⟩
    refine ⟨e, he, ?_⟩
    by_cases h1 : e.csv1 = u ∧ idxOf ns u < idxOf ns e.csv2
    · rw [if_pos h1] at hcond
      exact Or.inl ⟨(Option.some.inj hcond).symm, h1⟩
    · rw [if_neg h1] at hcond
      by_cases h2 : e.csv2 = u ∧ idxOf ns u < idxOf ns e.csv1
      · rw [if_pos h2] at hcond
        exact Or.inr ⟨(Option.some.inj hcond).symm, h2⟩
      · rw [if_neg h2] at hcond
        cases hcond
  · rintro ⟨e, he, ⟨hee, h1⟩ | ⟨hee, h2⟩⟩
    · exact ⟨e, he, by rw [if_pos h1, hee]⟩
    · refine ⟨e, he, ?_⟩
      have h1 : ¬ (e.csv1 = u ∧ idxOf ns u < idxOf ns e.csv2) := by
        rintro ⟨hh1, hh2⟩
        rw [h2.1] at hh2
        exact Nat.lt_irrefl _ hh2
      rw [if_neg h1, if_pos h2, hee]

theorem mem_listGraphEdges {ns : List String} {L : List MergeEdge} {e' : MergeEdge} :
    e' ∈ listGraphEdges ns L ↔ ∃ u ∈ ns, e' ∈ listEdgesAt ns u L := by
  unfold listGraphEdges
  exact mem_foldr_append (fun u => listEdgesAt ns u L) ns e'

/-- Same unordered endpoint pair (in either orientation) and same label. -/
def sameEdge (e e' : MergeEdge) : Prop :=
  ((e'.csv1 = e.csv1 ∧ e'.csv2 = e.csv2) ∨ (e'.csv1 = e.csv2 ∧ e'.csv2 = e.csv1))
    ∧ e'.shared = e.shared

theorem sameEdge_refl (e : MergeEdge) : sameEdge e e := ⟨Or.inl ⟨rfl, rfl⟩, rfl⟩

theorem sameEdge_trans {e1 e2 e3 : MergeEdge} (h12 : sameEdge e1 e2)
    (h23 : sameEdge e2 e3) : sameEdge e1 e3 := by
  obtain ⟨hp12, hl12⟩ := h12
  obtain ⟨hp23, hl23⟩ := h23
  refine ⟨?_, hl23.trans hl12⟩
  rcases hp12 with ⟨a, b⟩ | ⟨a, b⟩ <;> rcases hp23 with ⟨c, d⟩ | ⟨c, d⟩
  · exact Or.inl ⟨c.trans a, d.trans b⟩
  · exact Or.inr ⟨c.trans b, d.trans a⟩
  · exact Or.inr ⟨c.trans a, d.trans b⟩
  · exact Or.inl ⟨c.trans b, d.trans a⟩

theorem listGraphEdges_struct {ns : List String} {L : List MergeEdge} {e' : MergeEdge}
    (h : e' ∈ listGraphEdges ns L) : ∃ e ∈ L, sameEdge e e' := by
  rcases mem_listGraphEdges.mp h with ⟨u, _, hmem⟩
  rcases mem_listEdgesAt.mp hmem with ⟨e, he, ⟨hee, -⟩ | ⟨hee, -⟩⟩
  · exact ⟨e, he, hee ▸ sameEdge_refl e⟩
  · exact ⟨e, he, by rw [hee]; exact ⟨Or.inr ⟨rfl, rfl⟩, rfl⟩⟩

theorem listGraphEdges_cover {ns : List String} {L : List MergeEdge} {e : MergeEdge}
    (he : e ∈ L) (h1 : e.csv1 ∈ ns) (h2 : e.csv2 ∈ ns) (hne : e.csv1 ≠ e.csv2) :
    ∃ e' ∈ listGraphEdges ns L, sameEdge e e' := by
  have hidx : idxOf ns e.csv1 ≠ idxOf ns e.csv2 :=
    fun hh => hne ((List.indexOf_inj h1 h2).mp hh)
  rcases Nat.lt_or_ge (idxOf ns e.csv1) (idxOf ns e.csv2) with hlt | hge
  · refine ⟨e, mem_listGraphEdges.mpr ⟨e.csv1, h1, ?_⟩, sameEdge_refl e⟩
    exact mem_listEdgesAt.mpr ⟨e, he, Or.inl ⟨rfl, rfl, hlt⟩⟩
  · have hlt : idxOf ns e.csv2 < idxOf ns e.csv1 :=
      Nat.lt_of_le_of_ne hge fun hh => hidx hh.symm
    refine ⟨⟨e.csv2, e.csv1, e.shared⟩,
      mem_listGraphEdges.mpr ⟨e.csv2, h2, ?_⟩, ⟨Or.inr ⟨rfl, rfl⟩, rfl⟩⟩
    exact mem_listEdgesAt.mpr ⟨e, he, Or.inr ⟨rfl, rfl, hlt⟩⟩

theorem edgeAdj_listGraphEdges {ns : List String} {L : List MergeEdge}
    (hend : ∀ e ∈ L, e.csv1 ∈ ns ∧ e.csv2 ∈ ns ∧ e.csv1 ≠ e.csv2) (x y : String) :
    edgeAdj (listGraphEdges ns L) x y ↔ edgeAdj L x y := by
  constructor
  · rintro ⟨e', he', hor⟩
    rcases listGraphEdges_struct he' with ⟨e, he, ⟨hp, -⟩⟩
    rcases hp with ⟨a, b⟩ | ⟨a, b⟩
    · refine ⟨e, he, ?_⟩
      rcases hor with ⟨hx, hy⟩ | ⟨hx, hy⟩
      · exact Or.inl ⟨a ▸ hx, b ▸ hy⟩
      · exact Or.inr ⟨a ▸ hx, b ▸ hy⟩
    · refine ⟨e, he, ?_⟩
      rcases hor with ⟨hx, hy⟩ | ⟨hx, hy⟩
      · exact Or.inr ⟨b ▸ hy, a ▸ hx⟩
      · exact Or.inl ⟨b ▸ hy, a ▸ hx⟩
  · rintro ⟨e, he, hor⟩
    rcases listGraphEdges_cover he (hend e he).1 (hend e he).2.1 (hend e he).2.2 with
      ⟨e', he', ⟨hp, -⟩⟩
    rcases hp with ⟨a, b⟩ | ⟨a, b⟩
    · refine ⟨e', he', ?_⟩
      rcases hor with ⟨hx, hy⟩ | ⟨hx, hy⟩
      · exact Or.inl ⟨a.trans hx, b.trans hy⟩
      · exact Or.inr ⟨a.trans hx, b.trans hy⟩
    · refine ⟨e', he', ?_⟩
      rcases hor with ⟨hx, hy⟩ | ⟨hx, hy⟩
      · exact Or.inr ⟨a.trans hy, b.trans hx⟩
      · exact Or.inl ⟨a.trans hy, b.trans hx⟩

/-- Is the edge reported at primary node `u` in the `G.edges()` listing? -/
def listedAtB (ns : List String) (u : String) (e : MergeEdge) : Bool :=
  decide (e.csv1 = u ∧ idxOf ns u < idxOf ns e.csv2)
    || decide (e.csv2 = u ∧ idxOf ns u < idxOf ns e.csv1)

theorem length_listEdgesAt (ns : List String) (u : String) (L : List MergeEdge) :
    (listEdgesAt ns u L).length = L.countP (listedAtB ns u) := by
  induction L with
  | nil => rfl
  | cons e rest ih =>
      rw [listEdgesAt, List.filterMap_cons, List.countP_cons]
      by_cases h1 : e.csv1 = u ∧ idxOf ns u < idxOf ns e.csv2
      · rw [if_pos h1]
        have hb : listedAtB ns u e = true := by
          simp only [listedAtB, Bool.or_eq_true, decide_eq_true_eq]
          exact Or.inl h1
        rw [List.length_cons, hb, if_pos rfl]
        rw [show listEdgesAt ns u rest = List.filterMap _ rest from rfl] at ih
        omega
      · rw [if_neg h1]
        by_cases h2 : e.csv2 = u ∧ idxOf ns u < idxOf ns e.csv1
        · rw [if_pos h2]
          have hb : listedAtB ns u e = true := by
            simp only [listedAtB, Bool.or_eq_true, decide_eq_true_eq]
            exact Or.inr h2
          rw [List.length_cons, hb, if_pos rfl]
          rw [show listEdgesAt ns u rest = List.filterMap _ rest from rfl] at ih
          omega
        · rw [if_neg h2]
          have hb : listedAtB ns u e = false := by
            simp only [listedAtB, Bool.or_eq_false_iff, decide_eq_false_iff_not]
            exact ⟨h1, h2⟩
          rw [hb, if_neg (by simp), Nat.add_zero]
          exact ih

theorem countP_eq_one_of_unique {p : String → Bool} {a : String} {ns : List String}
    (hp : ∀ u, p u = true ↔ u = a) (ha : a ∈ ns) (hnd : ns.Nodup) :
    ns.countP p = 1 := by
  induction ns with
  | nil => cases ha
  | cons b t ih =>
      rw [List.countP_cons]
      rw [List.nodup_cons] at hnd
      rcases List.mem_cons.mp ha with heq | ht
      · subst heq
        have hz : t.countP p = 0 :=
          List.countP_eq_zero.mpr fun u hu hpu => hnd.1 ((hp u).mp hpu ▸ hu)
        rw [hz, (hp a).mpr rfl, if_pos rfl]
      · have hb : p b = false := by
          rw [Bool.eq_false_iff]
          intro hpb
          exact hnd.1 ((hp b).mp hpb ▸ ht)
        rw [hb, if_neg (by simp), ih ht hnd.2]

theorem sum_map_ite_one (ns : List String) (p : String → Bool) :
    (ns.map fun u => if p u = true then 1 else 0).sum = ns.countP p := by
  induction ns with
  | nil => rfl
  | cons u t ih =>
      rw [List.map_cons, List.sum_cons, ih, List.countP_cons]
      omega

theorem sum_countP_swap (ns : List String) (L : List MergeEdge)
    (m : String → MergeEdge → Bool) :
    (ns.map fun u => L.countP (m u)).sum = (L.map fun e => ns.countP fun u => m u e).sum := by
  induction L with
  | nil => simp
  | cons e rest ih =>
      have hsplit : (ns.map fun u => (e :: rest).countP (m u))
          = ns.map fun u => rest.countP (m u) + (if m u e = true then 1 else 0) :=
        List.map_congr_left fun u _ => List.countP_cons _ _ _
      rw [hsplit, List.sum_map_add, ih, sum_map_ite_one, List.map_cons, List.sum_cons]
      omega

theorem listedAtB_unique (ns : List String) (e : MergeEdge)
    (h1 : e.csv1 ∈ ns) (h2 : e.csv2 ∈ ns) (hne : e.csv1 ≠ e.csv2) :
    ∃ a ∈ ns, ∀ u, listedAtB ns u e = true ↔ u = a := by
  have hidx : idxOf ns e.csv1 ≠ idxOf ns e.csv2 :=
    fun hh => hne ((List.indexOf_inj h1 h2).mp hh)
  rcases Nat.lt_or_ge (idxOf ns e.csv1) (idxOf ns e.csv2) with hlt | hge
  · refine ⟨e.csv1, h1, fun u => ?_⟩
    simp only [listedAtB, Bool.or_eq_true, decide_eq_true_eq]
    constructor
    · rintro (⟨ha, -⟩ | ⟨ha, hb⟩)
      · exact ha.symm
      · rw [← ha] at hb
        exact absurd (Nat.lt_trans hb hlt) (Nat.lt_irrefl _)
    · intro hu
      subst hu
      exact Or.inl ⟨rfl, hlt⟩
  · have hlt : idxOf ns e.csv2 < idxOf ns e.csv1 :=
      Nat.lt_of_le_of_ne hge fun hh => hidx hh.symm
    refine ⟨e.csv2, h2, fun u => ?_⟩
    simp only [listedAtB, Bool.or_eq_true, decide_eq_true_eq]
    constructor
    · rintro (⟨ha, hb⟩ | ⟨ha, -⟩)
      · rw [← ha] at hb
        exact absurd (Nat.lt_trans hb hlt) (Nat.lt_irrefl _)
      · exact ha.symm
    · intro hu
      subst hu
      exact Or.inr ⟨rfl, hlt⟩

theorem sum_map_one (L : List MergeEdge) : (L.map fun _ => (1 : ℕ)).sum = L.length := by
  induction L with
  | nil => rfl
  | cons e rest ih =>
      rw [List.map_cons, List.sum_cons, ih, List.length_cons]
      omega

theorem length_listGraphEdges (ns : List String) (L : List MergeEdge) (hnd : ns.Nodup)
    (hend : ∀ e ∈ L, e.csv1 ∈ ns ∧ e.csv2 ∈ ns ∧ e.csv1 ≠ e.csv2) :
    (listGraphEdges ns L).length = L.length := by
  have haux : ∀ ms : List String,
      (ms.foldr (fun u acc => listEdgesAt ns u L ++ acc) []).length
        = (ms.map fun u => (listEdgesAt ns u L).length).sum := by
    intro ms
    induction ms with
    | nil => rfl
    | cons u t ih =>
        rw [List.foldr_cons, List.length_append, ih, List.map_cons, List.sum_cons]
  rw [listGraphEdges, haux ns]
  have h2 : (ns.map fun u => (listEdgesAt ns u L).length)
      = ns.map fun u => L.countP (listedAtB ns u) :=
    List.map_congr_left fun u _ => length_listEdgesAt ns u L
  rw [h2, sum_countP_swap]
  have h3 : (L.map fun e => ns.countP fun u => listedAtB ns u e) = L.map fun _ => 1 := by
    refine List.map_congr_left fun e he => ?_
    rcases listedAtB_unique ns e (hend e he).1 (hend e he).2.1 (hend e he).2.2 with ⟨a, ha, hu⟩
    exact countP_eq_one_of_unique hu ha hnd
  rw [h3, sum_map_one]

/-- The spanning properties of the plan `find_merge_path` returns on a
connected graph: some plan is returned; it has (number of datasets − 1)
steps; each step is an edge of the connection graph (up to orientation,
with its label); and, when there are at least two datasets, every dataset
name occurs in some step. -/
theorem planOfSchemas_spanning (schemas : List (String × Finset String))
    (hnd : (schemas.map Prod.fst).Nodup)
    (hconn : connectedB (schemas.map Prod.fst) (pairScanAux schemas) = true) :
    ∃ plan, planOfSchemas schemas = some plan ∧
      plan.length = schemas.length - 1 ∧
      (∀ ep ∈ plan, ∃ e0 ∈ pairScanAux schemas, sameEdge e0 ep) ∧
      (2 ≤ schemas.length →
        ∀ n ∈ schemas.map Prod.fst, ∃ ep ∈ plan, ep.csv1 = n ∨ ep.csv2 = n) := by
  classical
  set keys := schemas.map Prod.fst with hkeys
  set E := pairScanAux schemas with hE
  set ns := nodeOrder keys E with hns
  set sortedE := listGraphEdges ns E with hsorted
  set accepted := (krFold sortedE id).2 with hacc
  set finalF := (krFold sortedE id).1 with hfin
  set plan := listGraphEdges ns accepted with hplandef
  -- basic facts about the raw edges
  have hendE : ∀ e ∈ E, e.csv1 ∈ keys ∧ e.csv2 ∈ keys ∧ e.csv1 ≠ e.csv2 := by
    intro e he
    have h1 := pairScan_endpoints e he
    exact ⟨h1.1, h1.2.1, (pairScan_label hnd e he).1⟩
  have hnsmem : ∀ x, x ∈ ns ↔ x ∈ keys :=
    mem_nodeOrder keys E fun e he => ⟨(hendE e he).1, (hendE e he).2.1⟩
  have hnsnd : ns.Nodup := nodup_nodeOrder keys E hnd
  have hendEns : ∀ e ∈ E, e.csv1 ∈ ns ∧ e.csv2 ∈ ns ∧ e.csv1 ≠ e.csv2 := by
    intro e he
    exact ⟨(hnsmem _).mpr (hendE e he).1, (hnsmem _).mpr (hendE e he).2.1, (hendE e he).2.2⟩
  have hend_sorted : ∀ e' ∈ sortedE, e'.csv1 ∈ ns ∧ e'.csv2 ∈ ns ∧ e'.csv1 ≠ e'.csv2 := by
    intro e' he'
    rcases listGraphEdges_struct he' with ⟨e, he, ⟨hp, -⟩⟩
    have h1 := hendEns e he
    rcases hp with ⟨a, b⟩ | ⟨a, b⟩
    · exact ⟨a ▸ h1.1, b ▸ h1.2.1, fun hh => h1.2.2 (a ▸ b ▸ hh)⟩
    · exact ⟨a ▸ h1.2.1, b ▸ h1.1, fun hh => h1.2.2 (a ▸ b ▸ hh).symm⟩
  have hend_acc : ∀ e ∈ accepted, e.csv1 ∈ ns ∧ e.csv2 ∈ ns ∧ e.csv1 ≠ e.csv2 :=
    fun e he => hend_sorted e (krFold_acc_sub sortedE id e he)
  -- connectivity: all keys share a final representative
  obtain ⟨k0, hk0⟩ : ∃ k0, k0 ∈ keys := by
    cases hkk : keys with
    | nil =>
        rw [hkk] at hconn
        exact absurd (show (false : Bool) = true from hconn) (by simp)
    | cons a t => exact ⟨a, hkk ▸ List.mem_cons_self a t⟩
  have hrep : ∀ x ∈ keys, ∀ y ∈ keys, componentRep E x = componentRep E y := by
    cases hkk : keys with
    | nil => rw [hkk] at hk0; cases hk0
    | cons a t =>
        rw [hkk] at hconn
        have hconn2 : ((a :: t).all fun x => componentRep E x == componentRep E a) = true :=
          hconn
        have hall := List.all_eq_true.mp hconn2
        intro x hx y hy
        have hxa : componentRep E x = componentRep E a := by
          have := hall x (hkk ▸ hx)
          simpa using this
        have hya : componentRep E y = componentRep E a := by
          have := hall y (hkk ▸ hy)
          simpa using this
        exact hxa.trans hya.symm
  have hReachE : ∀ x ∈ keys, ∀ y ∈ keys, Reach E x y := by
    intro x hx y hy
    exact krFold_sound E E id (fun e he => he)
      (fun a b hab => (show a = b from hab) ▸ Relation.ReflTransGen.refl) x y
      (hrep x hx y hy)
  have hReachS : ∀ x ∈ keys, ∀ y ∈ keys, Reach sortedE x y := by
    intro x hx y hy
    refine Reach_mono ?_ (hReachE x hx y hy)
    intro a b hab
    exact (edgeAdj_listGraphEdges hendEns a b).mpr hab
  have hfinal : ∀ x ∈ keys, ∀ y ∈ keys, finalF x = finalF y := by
    intro x hx y hy
    exact krFold_complete (hReachS x hx y hy) id
  -- counting
  have hcc1 : classCount finalF ns = 1 := by
    unfold classCount
    rw [Finset.card_eq_one]
    refine ⟨finalF k0, ?_⟩
    ext y
    simp only [List.mem_toFinset, List.mem_map, Finset.mem_singleton]
    constructor
    · rintro ⟨x, hx, hxy⟩
      rw [← hxy]
      exact hfinal x ((hnsmem x).mp hx) k0 hk0
    · intro hy
      exact ⟨k0, (hnsmem k0).mpr hk0, hy.symm⟩
  have hccid : classCount id ns = ns.length := by
    unfold classCount
    rw [List.map_id]
    exact List.toFinset_card_of_nodup hnsnd
  have hnslen : ns.length = keys.length := by
    have h1 : ns.toFinset = keys.toFinset := by
      ext x
      simp only [List.mem_toFinset]
      exact hnsmem x
    calc ns.length = ns.toFinset.card := (List.toFinset_card_of_nodup hnsnd).symm
      _ = keys.toFinset.card := by rw [h1]
      _ = keys.length := List.toFinset_card_of_nodup hnd
  have hcnt := krFold_count ns sortedE id
    (fun e he => ⟨(hend_sorted e he).1, (hend_sorted e he).2.1⟩)
  have hacclen : accepted.length = schemas.length - 1 := by
    rw [← hfin, ← hacc] at hcnt
    rw [hcc1, hccid, hnslen] at hcnt
    have hklen : keys.length = schemas.length := List.length_map schemas Prod.fst
    omega
  have hplanlen : plan.length = schemas.length - 1 := by
    rw [hplandef, length_listGraphEdges ns accepted hnsnd hend_acc]
    exact hacclen
  -- each plan step comes from a graph edge
  have hstep : ∀ ep ∈ plan, ∃ e0 ∈ E, sameEdge e0 ep := by
    intro ep hep
    rcases listGraphEdges_struct hep with ⟨ea, hea, hsame1⟩
    rcases listGraphEdges_struct (krFold_acc_sub sortedE id ea hea) with ⟨e0, he0, hsame0⟩
    exact ⟨e0, he0, sameEdge_trans hsame0 hsame1⟩
  -- coverage
  have hcover : 2 ≤ schemas.length →
      ∀ n ∈ keys, ∃ ep ∈ plan, ep.csv1 = n ∨ ep.csv2 = n := by
    intro hlen n hn
    have hex : ∃ ea ∈ accepted, ea.csv1 = n ∨ ea.csv2 = n := by
      by_contra hno
      push_neg at hno
      have huntouched := krFold_untouched sortedE id n hno (fun x => Iff.rfl)
      obtain ⟨m, hm, hmn⟩ : ∃ m ∈ keys, m ≠ n := by
        have hklen : 2 ≤ keys.length := by
          rw [hkeys, List.length_map]
          exact hlen
        have hnd2 := hnd
        cases hkk : keys with
        | nil => rw [hkk] at hklen; cases hklen
        | cons a t =>
            cases htt : t with
            | nil => rw [hkk, htt] at hklen; simp at hklen
            | cons b t2 =>
                by_cases han : a = n
                · refine ⟨b, List.mem_cons_of_mem _ (List.mem_cons_self _ _), ?_⟩
                  rw [hkk, htt, List.nodup_cons] at hnd2
                  intro hbn
                  refine hnd2.1 ?_
                  rw [han, ← hbn]
                  exact List.mem_cons_self _ _
                · exact ⟨a, List.mem_cons_self _ _, han⟩
      have h3 : finalF m = n := (hfinal m hm n hn).trans ((huntouched n).mpr rfl)
      exact hmn ((huntouched m).mp h3)
    rcases hex with ⟨ea, hea, htouch⟩
    rcases listGraphEdges_cover hea (hend_acc ea hea).1 (hend_acc ea hea).2.1
      (hend_acc ea hea).2.2 with ⟨ep, hep, ⟨hp, -⟩⟩
    refine ⟨ep, hep, ?_⟩
    rcases hp with ⟨a, b⟩ | ⟨a, b⟩
    · rcases htouch with h | h
      · exact Or.inl (a.trans h)
      · exact Or.inr (b.trans h)
    · rcases htouch with h | h
      · exact Or.inr (b.trans h)
      · exact Or.inl (a.trans h)
  refine ⟨plan, ?_, hplanlen, hstep, hcover⟩
  show planOfSchemas schemas = some plan
  unfold planOfSchemas
  rw [← hkeys, ← hE, if_pos hconn]

/-- Dataset-level packaging of `planOfSchemas_spanning`: the plan of a
connected collection is a spanning-tree edge sequence with exact labels. -/
theorem findMergePath_spanning (csvs : List Dataset) (hnd : (csvs.map Dataset.name).Nodup)
    (hconn : isMergeable csvs = true) :
    ∃ plan, findMergePath csvs = some plan ∧
      plan.length = csvs.length - 1 ∧
      (∀ e ∈ plan, e.csv1 ≠ e.csv2 ∧ e.csv1 ∈ csvs.map Dataset.name ∧
        e.csv2 ∈ csvs.map Dataset.name ∧
        e.shared = colsetOf csvs e.csv1 ∩ colsetOf csvs e.csv2 ∧ e.shared ≠ ∅) ∧
      (2 ≤ csvs.length →
        ∀ d ∈ csvs, ∃ e ∈ plan, e.csv1 = d.name ∨ e.csv2 = d.name) := by
  have hkeys := schema_keys csvs
  have hnd' : ((csvs.map Dataset.schema).map Prod.fst).Nodup := by
    rw [hkeys]
    exact hnd
  have hconn' : connectedB ((csvs.map Dataset.schema).map Prod.fst)
      (pairScanAux (csvs.map Dataset.schema)) = true := by
    rw [hkeys]
    exact hconn
  rcases planOfSchemas_spanning (csvs.map Dataset.schema) hnd' hconn' with
    ⟨plan, hplan, hlen, hstep, hcov⟩
  refine ⟨plan, hplan, ?_, ?_, ?_⟩
  · rw [hlen, List.length_map]
  · intro e he
    rcases hstep e he with ⟨e0, he0, ⟨hp, hl⟩⟩
    have hlab := pairScan_label hnd' e0 he0
    have hend := pairScan_endpoints e0 he0
    have hm1 : e0.csv1 ∈ csvs.map Dataset.name := by
      rw [← hkeys]
      exact hend.1
    have hm2 : e0.csv2 ∈ csvs.map Dataset.name := by
      rw [← hkeys]
      exact hend.2.1
    rcases hp with ⟨a, b⟩ | ⟨a, b⟩
    · refine ⟨?_, ?_, ?_, ?_, ?_⟩
      · intro hh
        rw [a, b] at hh
        exact hlab.1 hh
      · rw [a]
        exact hm1
      · rw [b]
        exact hm2
      · rw [hl, a, b]
        exact hlab.2
      · rw [hl]
        exact hend.2.2
    · refine ⟨?_, ?_, ?_, ?_, ?_⟩
      · intro hh
        rw [a, b] at hh
        exact hlab.1 hh.symm
      · rw [a]
        exact hm2
      · rw [b]
        exact hm1
      · rw [hl, a, b, Finset.inter_comm]
        exact hlab.2
      · rw [hl]
        exact hend.2.2
  · intro hlen2 d hd
    have hmem : d.name ∈ (csvs.map Dataset.schema).map Prod.fst := by
      rw [hkeys]
      exact List.mem_map.mpr ⟨d, hd, rfl⟩
    have hlen' : 2 ≤ (csvs.map Dataset.schema).length := by
      rw [List.length_map]
      exact hlen2
    exact hcov hlen' d.name hmem

/-- C1 (amended): for every connected collection of distinctly-named
datasets, `find_merge_path` returns a plan that is a spanning-tree edge
sequence — exactly (number of datasets − 1) steps, each step joining two
distinct dataset names on their exact non-empty shared column set, and
(when at least two datasets exist) every dataset appearing in some step —
but the step order is the library's edge-iteration order and is NOT
guaranteed to be incrementally executable: a later step may join two
datasets neither of which has appeared in any prior step (see the
counterexample). -/
theorem claim_C1 (csvs : List Dataset) (hnd : (csvs.map Dataset.name).Nodup)
    (hconn : isMergeable csvs = true) :
    ∃ plan, findMergePath csvs = some plan ∧
      plan.length = csvs.length - 1 ∧
      (∀ e ∈ plan, e.csv1 ≠ e.csv2 ∧ e.csv1 ∈ csvs.map Dataset.name ∧
        e.csv2 ∈ csvs.map Dataset.name ∧
        e.shared = colsetOf csvs e.csv1 ∩ colsetOf csvs e.csv2 ∧ e.shared ≠ ∅) ∧
      (2 ≤ csvs.length →
        ∀ d ∈ csvs, ∃ e ∈ plan, e.csv1 = d.name ∨ e.csv2 = d.name) :=
  findMergePath_spanning csvs hnd hconn

/-- The five-dataset counterexample collection: d0{a}, d1{b,c}, d2{a,d},
d3{b}, d4{c,d}.  Its connection graph is a tree: d0–d2 (a), d2–d4 (d),
d1–d4 (c), d1–d3 (b). -/
def fiveCsvs : List Dataset :=
  [⟨"d0", ["a"], []⟩, ⟨"d1", ["b", "c"], []⟩, ⟨"d2", ["a", "d"], []⟩,
   ⟨"d3", ["b"], []⟩, ⟨"d4", ["c", "d"], []⟩]

/-- Counterexample for C1 as stated: `fiveCsvs` is connected (mergeable),
yet the plan `find_merge_path` produces — steps (d0,d2), (d2,d4), (d1,d3),
(d1,d4) — is not incrementally executable: the third step joins d1 and d3,
neither of which appears in any prior step. -/
theorem claim_C1_counterexample :
    isMergeable fiveCsvs = true ∧
    (findMergePath fiveCsvs).map planExecB = some false := by
  exact ⟨by decide, by decide⟩

/-- Witness for C1 at scenario 1 (three connected datasets). -/
theorem claim_C1_witness :
    ((scen1csvs.map Dataset.name).Nodup ∧ isMergeable scen1csvs = true) ∧
    (∃ plan, findMergePath scen1csvs = some plan ∧
      plan.length = scen1csvs.length - 1 ∧
      (∀ e ∈ plan, e.csv1 ≠ e.csv2 ∧ e.csv1 ∈ scen1csvs.map Dataset.name ∧
        e.csv2 ∈ scen1csvs.map Dataset.name ∧
        e.shared = colsetOf scen1csvs e.csv1 ∩ colsetOf scen1csvs e.csv2 ∧
        e.shared ≠ ∅) ∧
      (2 ≤ scen1csvs.length →
        ∀ d ∈ scen1csvs, ∃ e ∈ plan, e.csv1 = d.name ∨ e.csv2 = d.name)) :=
  ⟨⟨by decide, by decide⟩, claim_C1 scen1csvs (by decide) (by decide)⟩

/-! ## Determinism (C9), singleton collections (C10), disconnection (C6),
missing join keys (C7) -/

/-- The three-dataset collection A{x}, B{x,y}, C{y}. -/
def abcCsvs : List Dataset :=
  [⟨"A", ["x"], []⟩, ⟨"B", ["x", "y"], []⟩, ⟨"C", ["y"], []⟩]

/-- Counterexample for C9 as stated: the same collection of datasets (same
names, same schemas — one list is a permutation of the other), enumerated
in two different orders, yields two different merge plans; the plan
depends on the incidental enumeration order, not on a fixed tie-break
policy. -/
theorem claim_C9_counterexample :
    abcCsvs.reverse.Perm abcCsvs ∧
    findMergePath abcCsvs ≠ findMergePath abcCsvs.reverse :=
  ⟨List.reverse_perm abcCsvs, by decide⟩

/-- C9 (amended): planning is deterministic as a function of the ordered
dataset sequence and of each dataset's name and column SET: two dataset
lists agreeing pointwise on names and column sets (columns may be
reordered or repeated within a dataset; rows may differ) produce the
identical merge plan.  The plan does, however, change when the collection
is enumerated in a different order (see the counterexample). -/
theorem claim_C9 (xs ys : List Dataset)
    (h : List.Forall₂ (fun d d' => d.name = d'.name ∧ d.colset = d'.colset) xs ys) :
    findMergePath xs = findMergePath ys := by
  unfold findMergePath
  have hmap : xs.map Dataset.schema = ys.map Dataset.schema := by
    induction h with
    | nil => rfl
    | cons hd _ ih =>
        rw [List.map_cons, List.map_cons, ih]
        unfold Dataset.schema
        rw [hd.1, hd.2]
  rw [hmap]

/-- Witness for C9: the same dataset with its column list reordered and
duplicated yields the identical plan. -/
theorem claim_C9_witness :
    List.Forall₂ (fun d d' => d.name = d'.name ∧ d.colset = d'.colset)
      [Dataset.mk "A" ["x", "y"] []] [Dataset.mk "A" ["y", "x", "x"] []] ∧
    findMergePath [Dataset.mk "A" ["x", "y"] []]
      = findMergePath [Dataset.mk "A" ["y", "x", "x"] []] := by
  have hf : List.Forall₂ (fun d d' => d.name = d'.name ∧ d.colset = d'.colset)
      [Dataset.mk "A" ["x", "y"] []] [Dataset.mk "A" ["y", "x", "x"] []] :=
    List.Forall₂.cons ⟨rfl, by decide⟩ List.Forall₂.nil
  exact ⟨hf, claim_C9 _ _ hf⟩

theorem listGraphEdges_nil (ns : List String) : listGraphEdges ns [] = [] := by
  have haux : ∀ ms : List String,
      (ms.foldr (fun u acc => listEdgesAt ns u [] ++ acc) []) = [] := by
    intro ms
    induction ms with
    | nil => rfl
    | cons u t ih =>
        rw [List.foldr_cons, ih, List.append_nil]
        rfl
  exact haux ns

/-- C10: a collection holding exactly one loaded dataset is reported
mergeable with an empty merge plan, and `execute_merge` then returns no
table (the "No merge path found!" early return, producing no output file)
instead of the single dataset's table. -/
theorem claim_C10 (d : Dataset) :
    isMergeable [d] = true ∧ findMergePath [d] = some [] ∧
    executeMerge [d] = Except.error ExecErr.noPath := by
  have h1 : isMergeable [d] = true := by
    show ([d.name].all fun x => componentRep [] x == componentRep [] d.name) = true
    simp [componentRep, krFold]
  have h1' : connectedB (List.map Prod.fst [d.schema]) (pairScanAux [d.schema]) = true := h1
  have hE : pairScanAux [d.schema] = ([] : List MergeEdge) := rfl
  have h2 : findMergePath [d] = some [] := by
    show planOfSchemas [d.schema] = some []
    simp only [planOfSchemas]
    rw [if_pos h1', hE, listGraphEdges_nil]
    rw [show (krFold ([] : List MergeEdge) id).2 = [] from rfl, listGraphEdges_nil]
  refine ⟨h1, h2, ?_⟩
  unfold executeMerge
  rw [if_pos h1, h2]

deriving instance DecidableEq for Except

/-- The disconnected collection with two 2-dataset components:
A{x}–B{x} and C{y}–D{y}. -/
def twoPairCsvs : List Dataset :=
  [⟨"A", ["x"], []⟩, ⟨"B", ["x"], []⟩, ⟨"C", ["y"], []⟩, ⟨"D", ["y"], []⟩]

/-- Counterexample for C6 as stated: `twoPairCsvs` has two disconnected
components {A,B} and {C,D} but no degree-zero dataset, so the report's
only group field, `isolated_csvs`, is empty — the components' members are
not identified as mutually unmergeable groups. -/
theorem claim_C6_counterexample :
    isMergeable twoPairCsvs = false ∧ isolatedCsvs twoPairCsvs = [] ∧
    findMergePath twoPairCsvs = none ∧
    executeMerge twoPairCsvs = Except.error ExecErr.notConnected :=
  ⟨by decide, by decide, by decide, by decide⟩

/-- C6 (amended): whenever the connectivity graph is disconnected, the
planner returns no plan and the executor returns no table without
attempting any merge; the report, however, identifies as isolated exactly
the datasets of degree zero (those touched by no edge) — members of
larger disconnected groups are not reported. -/
theorem claim_C6 (csvs : List Dataset) (hconn : isMergeable csvs = false) :
    findMergePath csvs = none ∧
    executeMerge csvs = Except.error ExecErr.notConnected ∧
    ∀ d ∈ csvs, (d.name ∈ isolatedCsvs csvs ↔
      ∀ e ∈ graphEdges csvs, e.csv1 ≠ d.name ∧ e.csv2 ≠ d.name) := by
  have hconn' : connectedB ((csvs.map Dataset.schema).map Prod.fst)
      (pairScanAux (csvs.map Dataset.schema)) = false := by
    rw [schema_keys]
    exact hconn
  have h1 : findMergePath csvs = none := by
    show planOfSchemas (csvs.map Dataset.schema) = none
    unfold planOfSchemas
    rw [if_neg]
    rw [hconn']
    simp
  refine ⟨h1, ?_, ?_⟩
  · unfold executeMerge
    rw [if_neg]
    rw [hconn]
    simp
  · intro d hd
    unfold isolatedCsvs
    rw [List.mem_filter]
    constructor
    · intro h
      have hall := List.all_eq_true.mp h.2
      intro e he
      have := hall e he
      simp only [decide_eq_true_eq] at this
      exact ⟨fun hh => this (Or.inl hh), fun hh => this (Or.inr hh)⟩
    · intro h
      refine ⟨List.mem_map.mpr ⟨d, hd, rfl⟩, ?_⟩
      refine List.all_eq_true.mpr fun e he => ?_
      simp only [decide_eq_true_eq]
      rintro (hh | hh)
      · exact (h e he).1 hh
      · exact (h e he).2 hh

/-- Witness for C6 at the two-component collection. -/
theorem claim_C6_witness :
    isMergeable twoPairCsvs = false ∧
    (findMergePath twoPairCsvs = none ∧
      executeMerge twoPairCsvs = Except.error ExecErr.notConnected ∧
      ∀ d ∈ twoPairCsvs, (d.name ∈ isolatedCsvs twoPairCsvs ↔
        ∀ e ∈ graphEdges twoPairCsvs, e.csv1 ≠ d.name ∧ e.csv2 ≠ d.name)) :=
  ⟨by decide, claim_C6 twoPairCsvs (by decide)⟩

/-- Counterexample for C7 as stated: running the executor on `fiveCsvs`
reaches the step (d1, d3) whose join column b is absent from the
accumulated result; execution fails with the generic missing-join-key
error (pandas' `KeyError`) — the embedded executor, like the source, has
no distinct planning-invariant-violation error kind at all, so nothing is
"reported distinctly". -/
theorem claim_C7_counterexample :
    executeMerge fiveCsvs = Except.error (ExecErr.keyError ["b"]) := by decide

/-- C7 (amended): when a step's join columns are not all present on the
accumulated (left) side, the merge step fails fatally, but with the
generic missing-key join error carrying the join columns — the same error
any missing join column produces — not a distinct planning-invariant
violation. -/
theorem claim_C7 (acc right : DF) (onCols : List String)
    (h : ¬ ∀ c ∈ onCols, c ∈ acc.cols) :
    smartMerge acc right onCols = Except.error (ExecErr.keyError onCols) := by
  unfold smartMerge pdMergeOuter
  rw [if_neg]
  intro hand
  exact h hand.1

/-- Witness for C7: a step whose join column b is missing from the
accumulated side fails with the generic `keyError`. -/
theorem claim_C7_witness :
    (¬ ∀ c ∈ ["b"], c ∈ (DF.mk ["x"] []).cols) ∧
    smartMerge (DF.mk ["x"] []) (DF.mk ["b"] []) ["b"]
      = Except.error (ExecErr.keyError ["b"]) :=
  ⟨by decide, claim_C7 (DF.mk ["x"] []) (DF.mk ["b"] []) ["b"] (by decide)⟩

/-! ## Executing an incrementally executable plan (C4) -/

theorem find?_dataset_of_mem {csvs : List Dataset}
    (hnd : (csvs.map Dataset.name).Nodup) {d : Dataset} (hd : d ∈ csvs) :
    (csvs.find? fun d' => d'.name = d.name) = some d := by
  induction csvs with
  | nil => cases hd
  | cons q rest ih =>
      rw [List.map_cons, List.nodup_cons] at hnd
      rcases List.mem_cons.mp hd with he | ht
      · subst he
        simp [List.find?]
      · have hne : q.name ≠ d.name :=
          fun hh => hnd.1 (hh ▸ List.mem_map.mpr ⟨d, ht, rfl⟩)
        have hdd : (decide (q.name = d.name)) = false := decide_eq_false hne
        simp only [List.find?, hdd]
        exact ih hnd.2 ht

theorem lookupDF_of_mem {csvs : List Dataset}
    (hnd : (csvs.map Dataset.name).Nodup) {d : Dataset} (hd : d ∈ csvs) :
    lookupDF csvs d.name = d.df := by
  rw [lookupDF, find?_dataset_of_mem hnd hd]
  rfl

theorem colsetOf_eq {csvs : List Dataset}
    (hnd : (csvs.map Dataset.name).Nodup) {d : Dataset} (hd : d ∈ csvs) :
    colsetOf csvs d.name = d.colset := by
  have hnd' : ((csvs.map Dataset.schema).map Prod.fst).Nodup := by
    rw [schema_keys]
    exact hnd
  exact schemaColset_of_mem hnd' (List.mem_map.mpr ⟨d, hd, rfl⟩)

theorem lookupDF_cols {csvs : List Dataset}
    (hnd : (csvs.map Dataset.name).Nodup) {n : String} (hn : n ∈ csvs.map Dataset.name) :
    (lookupDF csvs n).cols.toFinset = colsetOf csvs n := by
  rcases List.mem_map.mp hn with ⟨d, hd, hdn⟩
  subst hdn
  rw [lookupDF_of_mem hnd hd, colsetOf_eq hnd hd]
  rfl

theorem smartMerge_ok_cols (L R : DF) (onCols : List String)
    (hL : ∀ c ∈ onCols, c ∈ L.cols) (hR : ∀ c ∈ onCols, c ∈ R.cols) :
    ∃ df, smartMerge L R onCols = .ok df ∧
      df.cols.toFinset = L.cols.toFinset ∪ R.cols.toFinset := by
  have hJsel : ∀ c ∈ onCols, c ∈ R.cols.filter (fun c => c ∉ L.cols ∨ c ∈ onCols) := by
    intro c hc
    exact List.mem_filter.mpr ⟨hR c hc, by simp [hc]⟩
  refine ⟨_, by unfold smartMerge pdMergeOuter; rw [if_pos ⟨hL, hJsel⟩], ?_⟩
  show (L.cols ++
      rightExtra (R.cols.filter fun c => c ∉ L.cols ∨ c ∈ onCols) onCols).toFinset = _
  ext c
  simp only [List.toFinset_append, Finset.mem_union, List.mem_toFinset, rightExtra,
    List.mem_filter, decide_eq_true_eq]
  constructor
  · rintro (hc | ⟨⟨hcR, -⟩, -⟩)
    · exact Or.inl hc
    · exact Or.inr hcR
  · rintro (hc | hc)
    · exact Or.inl hc
    · by_cases hcL : c ∈ L.cols
      · exact Or.inl hcL
      · have hcon : c ∉ onCols := fun hh => hcL (hL c hh)
        exact Or.inr ⟨⟨hc, Or.inl hcL⟩, hcon⟩

/-- The union of the stored column sets of the given dataset names. -/
def unionColsets (csvs : List Dataset) (ms : List String) : Finset String :=
  ms.foldr (fun n s => colsetOf csvs n ∪ s) ∅

/-- The union of the endpoint column sets over the given steps. -/
def stepsColsets (csvs : List Dataset) (steps : List MergeEdge) : Finset String :=
  steps.foldr (fun e s => colsetOf csvs e.csv1 ∪ (colsetOf csvs e.csv2 ∪ s)) ∅

theorem colsetOf_subset_unionColsets {csvs : List Dataset} {ms : List String}
    {n : String} (hn : n ∈ ms) : colsetOf csvs n ⊆ unionColsets csvs ms := by
  induction ms with
  | nil => cases hn
  | cons m t ih =>
      rcases List.mem_cons.mp hn with he | ht
      · rw [he]
        exact Finset.subset_union_left
      · exact (ih ht).trans Finset.subset_union_right

theorem colsetOf_subset_stepsColsets {csvs : List Dataset} {steps : List MergeEdge}
    {e : MergeEdge} (he : e ∈ steps) :
    colsetOf csvs e.csv1 ⊆ stepsColsets csvs steps ∧
      colsetOf csvs e.csv2 ⊆ stepsColsets csvs steps := by
  induction steps with
  | nil => cases he
  | cons e' t ih =>
      rcases List.mem_cons.mp he with heq | ht
      · subst heq
        exact ⟨Finset.subset_union_left,
          Finset.subset_union_left.trans Finset.subset_union_right⟩
      · refine ⟨(ih ht).1.trans ?_, (ih ht).2.trans ?_⟩
        · exact Finset.subset_union_right.trans Finset.subset_union_right
        · exact Finset.subset_union_right.trans Finset.subset_union_right

theorem stepsColsets_subset {csvs : List Dataset} {steps : List MergeEdge}
    {U : Finset String}
    (h : ∀ e ∈ steps, colsetOf csvs e.csv1 ⊆ U ∧ colsetOf csvs e.csv2 ⊆ U) :
    stepsColsets csvs steps ⊆ U := by
  induction steps with
  | nil => exact Finset.empty_subset U
  | cons e t ih =>
      have he := h e (List.mem_cons_self _ _)
      refine Finset.union_subset he.1 (Finset.union_subset he.2 ?_)
      exact ih fun e' he' => h e' (List.mem_cons_of_mem _ he')

theorem colset_subset_foldr {csvs : List Dataset} {d : Dataset} (hd : d ∈ csvs) :
    d.colset ⊆ csvs.foldr (fun d' s => d'.colset ∪ s) ∅ := by
  induction csvs with
  | nil => cases hd
  | cons q t ih =>
      rcases List.mem_cons.mp hd with he | ht
      · rw [he]
        exact Finset.subset_union_left
      · exact (ih ht).trans Finset.subset_union_right

theorem mem_foldr_colsets {csvs : List Dataset} {x : String}
    (hx : x ∈ csvs.foldr (fun d' s => d'.colset ∪ s) ∅) :
    ∃ d ∈ csvs, x ∈ d.colset := by
  induction csvs with
  | nil => cases hx
  | cons q t ih =>
      rcases Finset.mem_union.mp hx with h | h
      · exact ⟨q, List.mem_cons_self _ _, h⟩
      · rcases ih h with ⟨d, hd, hxd⟩
        exact ⟨d, List.mem_cons_of_mem _ hd, hxd⟩

theorem planExecAux_congr (steps : List MergeEdge) :
    ∀ (m1 m2 : List String), (∀ x, x ∈ m1 ↔ x ∈ m2) →
      planExecAux steps m1 = planExecAux steps m2 := by
  induction steps with
  | nil => intro m1 m2 _; rfl
  | cons e rest ih =>
      intro m1 m2 h
      rw [planExecAux, planExecAux]
      have h1 : decide (e.csv1 ∈ m1) = decide (e.csv1 ∈ m2) := by
        by_cases hx : e.csv1 ∈ m1
        · rw [decide_eq_true hx, decide_eq_true ((h _).mp hx)]
        · rw [decide_eq_false hx, decide_eq_false fun hh => hx ((h _).mpr hh)]
      have h2 : decide (e.csv2 ∈ m1) = decide (e.csv2 ∈ m2) := by
        by_cases hx : e.csv2 ∈ m1
        · rw [decide_eq_true hx, decide_eq_true ((h _).mp hx)]
        · rw [decide_eq_false hx, decide_eq_false fun hh => hx ((h _).mpr hh)]
      have h3 : planExecAux rest (e.csv1 :: e.csv2 :: m1)
          = planExecAux rest (e.csv1 :: e.csv2 :: m2) := by
        refine ih _ _ fun x => ?_
        simp only [List.mem_cons]
        rw [h x]
      rw [h1, h2, h3]

/-- Executing a plan whose steps each touch exactly one already-merged
dataset succeeds, and the result's column set is the accumulated set
united with the column sets of all the step endpoints. -/
theorem execSteps_ok (csvs : List Dataset) (hnd : (csvs.map Dataset.name).Nodup) :
    ∀ (steps : List MergeEdge) (acc : DF) (merged : List String),
      (∀ e ∈ steps, e.csv1 ∈ csvs.map Dataset.name ∧ e.csv2 ∈ csvs.map Dataset.name ∧
        e.shared = colsetOf csvs e.csv1 ∩ colsetOf csvs e.csv2) →
      planExecAux steps merged = true →
      acc.cols.toFinset = unionColsets csvs merged →
      ∃ df, execSteps csvs steps acc merged = .ok df ∧
        df.cols.toFinset = acc.cols.toFinset ∪ stepsColsets csvs steps := by
  intro steps
  induction steps with
  | nil =>
      intro acc merged _ _ _
      refine ⟨acc, rfl, ?_⟩
      show acc.cols.toFinset = acc.cols.toFinset ∪ (∅ : Finset String)
      rw [Finset.union_empty]
  | cons e rest ih =>
      intro acc merged hstep hexec hacc
      have he := hstep e (List.mem_cons_self _ _)
      have hrest := fun e' he' => hstep e' (List.mem_cons_of_mem e he')
      have hexec1 : ((decide (e.csv1 ∈ merged) != decide (e.csv2 ∈ merged))
          && planExecAux rest (e.csv1 :: e.csv2 :: merged)) = true := hexec
      rw [Bool.and_eq_true] at hexec1
      obtain ⟨hxor, hexec2⟩ := hexec1
      have honshared : ∀ c ∈ onList e, c ∈ e.shared :=
        fun c hc => (mem_sortedList e.shared c).mp hc
      by_cases h1 : e.csv1 ∈ merged
      · have h2 : e.csv2 ∉ merged := by
          intro h2
          rw [decide_eq_true h1, decide_eq_true h2] at hxor
          exact absurd hxor (by decide)
        have hsub1 : colsetOf csvs e.csv1 ⊆ acc.cols.toFinset := by
          rw [hacc]
          exact colsetOf_subset_unionColsets h1
        have honL : ∀ c ∈ onList e, c ∈ acc.cols := by
          intro c hc
          have hcs : c ∈ colsetOf csvs e.csv1 :=
            (Finset.mem_inter.mp (he.2.2 ▸ honshared c hc)).1
          exact List.mem_toFinset.mp (hsub1 hcs)
        have honR : ∀ c ∈ onList e, c ∈ (lookupDF csvs e.csv2).cols := by
          intro c hc
          have hcs : c ∈ colsetOf csvs e.csv2 :=
            (Finset.mem_inter.mp (he.2.2 ▸ honshared c hc)).2
          refine List.mem_toFinset.mp ?_
          rw [lookupDF_cols hnd he.2.1]
          exact hcs
        rcases smartMerge_ok_cols acc (lookupDF csvs e.csv2) (onList e) honL honR with
          ⟨acc2, hok, hcols2⟩
        have hacc2 : acc2.cols.toFinset = unionColsets csvs (e.csv2 :: merged) := by
          rw [hcols2, lookupDF_cols hnd he.2.1, hacc]
          show unionColsets csvs merged ∪ colsetOf csvs e.csv2
            = colsetOf csvs e.csv2 ∪ unionColsets csvs merged
          exact Finset.union_comm _ _
        have hiff : ∀ x, x ∈ e.csv1 :: e.csv2 :: merged ↔ x ∈ e.csv2 :: merged := by
          intro x
          simp only [List.mem_cons]
          constructor
          · rintro (h | h | h)
            · rw [h]
              exact Or.inr h1
            · exact Or.inl h
            · exact Or.inr h
          · rintro (h | h)
            · exact Or.inr (Or.inl h)
            · exact Or.inr (Or.inr h)
        have hexec3 : planExecAux rest (e.csv2 :: merged) = true := by
          rw [← planExecAux_congr rest _ _ hiff]
          exact hexec2
        rcases ih acc2 (e.csv2 :: merged) hrest hexec3 hacc2 with ⟨df, hdf, hdfc⟩
        refine ⟨df, ?_, ?_⟩
        · have hnext : (if e.csv1 ∈ merged then e.csv2 else e.csv1) = e.csv2 := if_pos h1
          show (match smartMerge acc
                (lookupDF csvs (if e.csv1 ∈ merged then e.csv2 else e.csv1)) (onList e) with
            | Except.ok a => execSteps csvs rest a
                ((if e.csv1 ∈ merged then e.csv2 else e.csv1) :: merged)
            | Except.error err => Except.error err) = Except.ok df
          rw [hnext, hok]
          exact hdf
        · rw [hdfc, hcols2, lookupDF_cols hnd he.2.1]
          show acc.cols.toFinset ∪ colsetOf csvs e.csv2 ∪ stepsColsets csvs rest
            = acc.cols.toFinset ∪
              (colsetOf csvs e.csv1 ∪ (colsetOf csvs e.csv2 ∪ stepsColsets csvs rest))
          ext c
          simp only [Finset.mem_union]
          constructor
          · rintro ((hc | hc) | hc)
            · exact Or.inl hc
            · exact Or.inr (Or.inr (Or.inl hc))
            · exact Or.inr (Or.inr (Or.inr hc))
          · rintro (hc | hc | hc | hc)
            · exact Or.inl (Or.inl hc)
            · exact Or.inl (Or.inl (hsub1 hc))
            · exact Or.inl (Or.inr hc)
            · exact Or.inr hc
      · have h2 : e.csv2 ∈ merged := by
          by_contra h2
          rw [decide_eq_false h1, decide_eq_false h2] at hxor
          exact absurd hxor (by decide)
        have hsub2 : colsetOf csvs e.csv2 ⊆ acc.cols.toFinset := by
          rw [hacc]
          exact colsetOf_subset_unionColsets h2
        have honL : ∀ c ∈ onList e, c ∈ acc.cols := by
          intro c hc
          have hcs : c ∈ colsetOf csvs e.csv2 :=
            (Finset.mem_inter.mp (he.2.2 ▸ honshared c hc)).2
          exact List.mem_toFinset.mp (hsub2 hcs)
        have honR : ∀ c ∈ onList e, c ∈ (lookupDF csvs e.csv1).cols := by
          intro c hc
          have hcs : c ∈ colsetOf csvs e.csv1 :=
            (Finset.mem_inter.mp (he.2.2 ▸ honshared c hc)).1
          refine List.mem_toFinset.mp ?_
          rw [lookupDF_cols hnd he.1]
          exact hcs
        rcases smartMerge_ok_cols acc (lookupDF csvs e.csv1) (onList e) honL honR with
          ⟨acc2, hok, hcols2⟩
        have hacc2 : acc2.cols.toFinset = unionColsets csvs (e.csv1 :: merged) := by
          rw [hcols2, lookupDF_cols hnd he.1, hacc]
          show unionColsets csvs merged ∪ colsetOf csvs e.csv1
            = colsetOf csvs e.csv1 ∪ unionColsets csvs merged
          exact Finset.union_comm _ _
        have hiff : ∀ x, x ∈ e.csv1 :: e.csv2 :: merged ↔ x ∈ e.csv1 :: merged := by
          intro x
          simp only [List.mem_cons]
          constructor
          · rintro (h | h | h)
            · exact Or.inl h
            · rw [h]
              exact Or.inr h2
            · exact Or.inr h
          · rintro (h | h)
            · exact Or.inl h
            · exact Or.inr (Or.inr h)
        have hexec3 : planExecAux rest (e.csv1 :: merged) = true := by
          rw [← planExecAux_congr rest _ _ hiff]
          exact hexec2
        rcases ih acc2 (e.csv1 :: merged) hrest hexec3 hacc2 with ⟨df, hdf, hdfc⟩
        refine ⟨df, ?_, ?_⟩
        · have hnext : (if e.csv1 ∈ merged then e.csv2 else e.csv1) = e.csv1 := if_neg h1
          show (match smartMerge acc
                (lookupDF csvs (if e.csv1 ∈ merged then e.csv2 else e.csv1)) (onList e) with
            | Except.ok a => execSteps csvs rest a
                ((if e.csv1 ∈ merged then e.csv2 else e.csv1) :: merged)
            | Except.error err => Except.error err) = Except.ok df
          rw [hnext, hok]
          exact hdf
        · rw [hdfc, hcols2, lookupDF_cols hnd he.1]
          show acc.cols.toFinset ∪ colsetOf csvs e.csv1 ∪ stepsColsets csvs rest
            = acc.cols.toFinset ∪
              (colsetOf csvs e.csv1 ∪ (colsetOf csvs e.csv2 ∪ stepsColsets csvs rest))
          ext c
          simp only [Finset.mem_union]
          constructor
          · rintro ((hc | hc) | hc)
            · exact Or.inl hc
            · exact Or.inr (Or.inl hc)
            · exact Or.inr (Or.inr (Or.inr hc))
          · rintro (hc | hc | hc | hc)
            · exact Or.inl (Or.inl hc)
            · exact Or.inl (Or.inr hc)
            · exact Or.inl (Or.inl (hsub2 hc))
            · exact Or.inr hc

/-- C4 (amended): for every mergeable collection of at least two
distinctly-named datasets whose produced plan is incrementally executable,
executing the merge succeeds and the output column set equals the union of
all input datasets' column names (same-named non-key columns resolved
left-wins); but the quantifier of the original claim is too strong — a
mergeable collection can produce a non-executable plan, and then the
executor crashes producing no table at all (see the counterexample). -/
theorem claim_C4 (csvs : List Dataset) (hnd : (csvs.map Dataset.name).Nodup)
    (hlen : 2 ≤ csvs.length) (hconn : isMergeable csvs = true)
    (hexec : (findMergePath csvs).map planExecB = some true) :
    ∃ df, executeMerge csvs = .ok df ∧
      df.cols.toFinset = csvs.foldr (fun d s => d.colset ∪ s) ∅ := by
  rcases findMergePath_spanning csvs hnd hconn with ⟨plan, hplan, hplen, hstep, hcov⟩
  have hcov2 := hcov hlen
  rw [hplan] at hexec
  have hexecB : planExecB plan = true := by
    simpa using hexec
  cases plan with
  | nil =>
      exfalso
      simp only [List.length_nil] at hplen
      omega
  | cons st0 rest =>
      have hst0 := hstep st0 (List.mem_cons_self _ _)
      have honL : ∀ c ∈ onList st0, c ∈ (lookupDF csvs st0.csv1).cols := by
        intro c hc
        have hcs : c ∈ colsetOf csvs st0.csv1 :=
          (Finset.mem_inter.mp
            (hst0.2.2.2.1 ▸ (mem_sortedList st0.shared c).mp hc)).1
        refine List.mem_toFinset.mp ?_
        rw [lookupDF_cols hnd hst0.2.1]
        exact hcs
      have honR : ∀ c ∈ onList st0, c ∈ (lookupDF csvs st0.csv2).cols := by
        intro c hc
        have hcs : c ∈ colsetOf csvs st0.csv2 :=
          (Finset.mem_inter.mp
            (hst0.2.2.2.1 ▸ (mem_sortedList st0.shared c).mp hc)).2
        refine List.mem_toFinset.mp ?_
        rw [lookupDF_cols hnd hst0.2.2.1]
        exact hcs
      rcases smartMerge_ok_cols (lookupDF csvs st0.csv1) (lookupDF csvs st0.csv2)
        (onList st0) honL honR with ⟨r0, hok0, hr0cols⟩
      have hacc0 : r0.cols.toFinset = unionColsets csvs [st0.csv1, st0.csv2] := by
        rw [hr0cols, lookupDF_cols hnd hst0.2.1, lookupDF_cols hnd hst0.2.2.1]
        show _ = colsetOf csvs st0.csv1 ∪ (colsetOf csvs st0.csv2 ∪ ∅)
        rw [Finset.union_empty]
      have hexecAux : planExecAux rest [st0.csv1, st0.csv2] = true := hexecB
      have hrest : ∀ e ∈ rest, e.csv1 ∈ csvs.map Dataset.name ∧
          e.csv2 ∈ csvs.map Dataset.name ∧
          e.shared = colsetOf csvs e.csv1 ∩ colsetOf csvs e.csv2 := by
        intro e he
        have h := hstep e (List.mem_cons_of_mem st0 he)
        exact ⟨h.2.1, h.2.2.1, h.2.2.2.1⟩
      rcases execSteps_ok csvs hnd rest r0 [st0.csv1, st0.csv2] hrest hexecAux hacc0 with
        ⟨df, hdf, hdfc⟩
      have hEM : executeMerge csvs = execSteps csvs rest r0 [st0.csv1, st0.csv2] := by
        rw [executeMerge, if_pos hconn, hplan]
        show (match smartMerge (lookupDF csvs st0.csv1) (lookupDF csvs st0.csv2)
              (onList st0) with
          | Except.ok r => execSteps csvs rest r [st0.csv1, st0.csv2]
          | Except.error err => Except.error err) = _
        rw [hok0]
      have hname : ∀ n ∈ csvs.map Dataset.name,
          colsetOf csvs n ⊆ csvs.foldr (fun d s => d.colset ∪ s) ∅ := by
        intro n hn
        rcases List.mem_map.mp hn with ⟨d, hd, hdn⟩
        subst hdn
        rw [colsetOf_eq hnd hd]
        exact colset_subset_foldr hd
      refine ⟨df, ?_, ?_⟩
      · rw [hEM]
        exact hdf
      · rw [hdfc, hacc0]
        ext x
        constructor
        · intro hx
          rcases Finset.mem_union.mp hx with hx | hx
          · have hx1 : x ∈ colsetOf csvs st0.csv1 ∪ (colsetOf csvs st0.csv2 ∪ ∅) := hx
            rcases Finset.mem_union.mp hx1 with h | h
            · exact hname st0.csv1 hst0.2.1 h
            · rcases Finset.mem_union.mp h with h | h
              · exact hname st0.csv2 hst0.2.2.1 h
              · exact absurd h (Finset.not_mem_empty x)
          · refine stepsColsets_subset (fun e he => ?_) hx
            exact ⟨hname e.csv1 (hrest e he).1, hname e.csv2 (hrest e he).2.1⟩
        · intro hx
          rcases mem_foldr_colsets hx with ⟨d, hd, hxd⟩
          have hxn : x ∈ colsetOf csvs d.name := by
            rw [colsetOf_eq hnd hd]
            exact hxd
          rcases hcov2 d hd with ⟨e, he, hend⟩
          rcases List.mem_cons.mp he with heq | ht
          · subst heq
            rcases hend with h | h
            · have hx1 : x ∈ colsetOf csvs e.csv1 := by
                rw [h]
                exact hxn
              exact Finset.mem_union.mpr
                (Or.inl (Finset.mem_union.mpr (Or.inl hx1)))
            · have hx2 : x ∈ colsetOf csvs e.csv2 := by
                rw [h]
                exact hxn
              exact Finset.mem_union.mpr
                (Or.inl (Finset.mem_union.mpr (Or.inr (Finset.mem_union.mpr (Or.inl hx2)))))
          · rcases hend with h | h
            · have hx1 : x ∈ colsetOf csvs e.csv1 := by
                rw [h]
                exact hxn
              exact Finset.mem_union.mpr
                (Or.inr ((colsetOf_subset_stepsColsets ht).1 hx1))
            · have hx2 : x ∈ colsetOf csvs e.csv2 := by
                rw [h]
                exact hxn
              exact Finset.mem_union.mpr
                (Or.inr ((colsetOf_subset_stepsColsets ht).2 hx2))

/-- C4 counterexample: the five-dataset collection is mergeable (and has
more than one dataset), yet executing its merge plan aborts with a
`KeyError` — no output table is produced at all, so in particular no table
whose columns are the union of the inputs' columns. -/
theorem claim_C4_counterexample :
    isMergeable fiveCsvs = true ∧ 2 ≤ fiveCsvs.length ∧
      executeMerge fiveCsvs = Except.error (ExecErr.keyError ["b"]) := by
  decide

/-- C4 witness: the three-dataset scenario satisfies every hypothesis and
its merged table carries the union of the three column sets. -/
theorem claim_C4_witness :
    (scen1csvs.map Dataset.name).Nodup ∧ 2 ≤ scen1csvs.length ∧
      isMergeable scen1csvs = true ∧
      (findMergePath scen1csvs).map planExecB = some true ∧
      ∃ df, executeMerge scen1csvs = .ok df ∧
        df.cols.toFinset = scen1csvs.foldr (fun d s => d.colset ∪ s) ∅ :=
  ⟨by decide, by decide, by decide, by decide,
    claim_C4 scen1csvs (by decide) (by decide) (by decide) (by decide)⟩
